import Mathlib

/-!
Verification of the ingest pipeline of `packages/ingest/src/index.ts`:
extraction of uploaded CSV/PDF documents into raw records, canonicalization
and SHA-256 hashing of rows, and derivation of normalized transaction
candidates.  The TypeScript source is shallowly embedded: every definition
mirrors the corresponding source function.  JavaScript host primitives
(string `normalize("NFKC")`, `trim`, regular expression character classes,
`Date` parsing, SHA-256) are modelled explicitly; each model documents the
behaviour it captures.
-/

namespace Ingest

/-- Characters matched by the JavaScript regular-expression class `\s` and
trimmed by `String.prototype.trim`: tab, line feed, vertical tab, form feed,
carriage return, space, NBSP, the Unicode `Zs` space separators, the line and
paragraph separators, and the BOM. -/
def isJsWs (c : Char) : Bool :=
  c.toNat = 9 || c.toNat = 10 || c.toNat = 11 || c.toNat = 12 || c.toNat = 13 ||
  c.toNat = 32 || c.toNat = 160 || c.toNat = 0x1680 ||
  (0x2000 ≤ c.toNat && c.toNat ≤ 0x200a) ||
  c.toNat = 0x2028 || c.toNat = 0x2029 || c.toNat = 0x202f || c.toNat = 0x205f ||
  c.toNat = 0x3000 || c.toNat = 0xfeff

/-- Model of `String.prototype.normalize("NFKC")`.  Every code point that
occurs in this development (printable ASCII together with the currency signs
`€`, `£`, `₹`) is invariant under NFKC normalization, so the host call acts as
the identity on all values the verified pipeline manipulates; it is modelled
as the identity function. -/
def nfkc (s : String) : String := s

/-- JavaScript `String.prototype.trim` on a character list: remove the
`isJsWs` characters from both ends. -/
def jsTrimL (l : List Char) : List Char :=
  ((l.dropWhile isJsWs).reverse.dropWhile isJsWs).reverse

/-- JavaScript `String.prototype.trim`. -/
def jsTrim (s : String) : String := String.mk (jsTrimL s.data)

/-- Auxiliary scanner for `replace(/\s+/g, " ")`: `prevWs` records whether the
previously scanned character was whitespace, so that each maximal whitespace
run contributes a single space. -/
def collapseWsAux : Bool → List Char → List Char
  | _, [] => []
  | prevWs, c :: rest =>
    if isJsWs c then
      (if prevWs then [] else [' ']) ++ collapseWsAux true rest
    else
      c :: collapseWsAux false rest

/-- JavaScript `replace(/\s+/g, " ")` on a character list. -/
def collapseWsL (l : List Char) : List Char := collapseWsAux false l

/-- JavaScript `replace(/\s+/g, " ")`. -/
def collapseWs (s : String) : String := String.mk (collapseWsL s.data)

/-- Auxiliary scanner for `replace(/\s+/g, "_")`, used by the field-key
normalizer. -/
def underscoreWsAux : Bool → List Char → List Char
  | _, [] => []
  | prevWs, c :: rest =>
    if isJsWs c then
      (if prevWs then [] else ['_']) ++ underscoreWsAux true rest
    else
      c :: underscoreWsAux false rest

/-- JavaScript `replace(/\s+/g, "_")`. -/
def underscoreWs (s : String) : String := String.mk (underscoreWsAux false s.data)

/-- ASCII lower-casing of one character, the semantics of Lean's
`Char.toLower` and of JavaScript `toLowerCase` on the ASCII range (the only
range exercised by this pipeline). -/
def lowerChar (c : Char) : Char :=
  if 'A' ≤ c && c ≤ 'Z' then Char.ofNat (c.toNat + 32) else c

/-- JavaScript `String.prototype.toLowerCase`, modelled on the ASCII range. -/
def asciiToLower (s : String) : String := String.mk (s.data.map lowerChar)

/-- ASCII upper-casing of one character. -/
def upperChar (c : Char) : Char :=
  if 'a' ≤ c && c ≤ 'z' then Char.ofNat (c.toNat - 32) else c

/-- JavaScript `String.prototype.toUpperCase`, modelled on the ASCII range. -/
def asciiToUpper (s : String) : String := String.mk (s.data.map upperChar)

/-- The JavaScript regular-expression class `\d`, i.e. the ASCII digits. -/
def isAsciiDigit (c : Char) : Bool := '0' ≤ c && c ≤ '9'

/-- Numeric value of an ASCII digit character. -/
def charToDigit (c : Char) : Nat := c.toNat - 48

/-- ASCII digit character of a value below ten. -/
def digitChar : Nat → Char
  | 0 => '0'
  | 1 => '1'
  | 2 => '2'
  | 3 => '3'
  | 4 => '4'
  | 5 => '5'
  | 6 => '6'
  | 7 => '7'
  | 8 => '8'
  | _ => '9'

/-- Decimal digit list of a natural number, most significant digit first.
The fuel argument makes the recursion structural; `natToString` supplies
enough fuel for the value at hand. -/
def natDigitsAux : Nat → Nat → List Char
  | 0, _ => []
  | fuel + 1, n =>
    if n < 10 then [digitChar n]
    else natDigitsAux fuel (n / 10) ++ [digitChar (n % 10)]

/-- Decimal digit list of a natural number. -/
def natDigits (n : Nat) : List Char := natDigitsAux (n + 1) n

/-- Decimal rendering of a natural number, the semantics of JavaScript
`BigInt.prototype.toString` on non-negative values. -/
def natToString (n : Nat) : String := String.mk (natDigits n)

/-- Value of a list of ASCII digit characters read in base ten, the
semantics of JavaScript `Number`/`BigInt` conversion of an all-digit
string (the empty list reads as zero). -/
def digitsToNat (l : List Char) : Nat :=
  l.foldl (fun a c => a * 10 + charToDigit c) 0

theorem digitChar_lt_ten_eq (n : Nat) (h : n < 10) : charToDigit (digitChar n) = n := by
  interval_cases n <;> rfl

theorem digitChar_isDigit (n : Nat) : isAsciiDigit (digitChar n) = true := by
  match n with
  | 0 => rfl
  | 1 => rfl
  | 2 => rfl
  | 3 => rfl
  | 4 => rfl
  | 5 => rfl
  | 6 => rfl
  | 7 => rfl
  | 8 => rfl
  | n + 9 => rfl

theorem digitsToNat_append_single (l : List Char) (c : Char) :
    digitsToNat (l ++ [c]) = digitsToNat l * 10 + charToDigit c := by
  simp [digitsToNat, List.foldl_append]

theorem natDigitsAux_ne_nil (fuel n : Nat) (h : n < fuel) :
    natDigitsAux fuel n ≠ [] := by
  cases fuel with
  | zero => omega
  | succ f =>
    simp only [natDigitsAux]
    split
    · simp
    · simp

theorem natDigitsAux_toNat (fuel n : Nat) (h : n < fuel) :
    digitsToNat (natDigitsAux fuel n) = n := by
  induction fuel generalizing n with
  | zero => omega
  | succ f ih =>
    simp only [natDigitsAux]
    split
    · rename_i hlt
      simp [digitsToNat, digitChar_lt_ten_eq n hlt]
    · rename_i hge
      rw [digitsToNat_append_single, ih (n / 10) (by omega),
        digitChar_lt_ten_eq (n % 10) (by omega)]
      omega

theorem digitsToNat_natDigits (n : Nat) : digitsToNat (natDigits n) = n :=
  natDigitsAux_toNat (n + 1) n (Nat.lt_succ_self n)

theorem natDigitsAux_all_digits (fuel n : Nat) :
    ∀ c ∈ natDigitsAux fuel n, isAsciiDigit c = true := by
  induction fuel generalizing n with
  | zero => intro c hc; simp [natDigitsAux] at hc
  | succ f ih =>
    intro c hc
    simp only [natDigitsAux] at hc
    split at hc
    · simp at hc; subst hc; exact digitChar_isDigit n
    · rw [List.mem_append] at hc
      rcases hc with hc | hc
      · exact ih (n / 10) c hc
      · simp at hc; subst hc; exact digitChar_isDigit (n % 10)

theorem natDigits_all_digits (n : Nat) :
    ∀ c ∈ natDigits n, isAsciiDigit c = true :=
  natDigitsAux_all_digits (n + 1) n

/-- Fixed-width two-digit rendering of a value below one hundred, as produced
by the host date formatter. -/
def pad2L (n : Nat) : List Char := [digitChar (n / 10 % 10), digitChar (n % 10)]

/-- Fixed-width four-digit rendering of a value below ten thousand, as
produced by the host date formatter. -/
def pad4L (n : Nat) : List Char :=
  [digitChar (n / 1000 % 10), digitChar (n / 100 % 10), digitChar (n / 10 % 10), digitChar (n % 10)]

/-- Fixed-width six-digit rendering of a value below one million, the
semantics of `toString().padStart(6, "0")` in the decimal normalizer. -/
def pad6L (n : Nat) : List Char :=
  [digitChar (n / 100000 % 10), digitChar (n / 10000 % 10), digitChar (n / 1000 % 10),
   digitChar (n / 100 % 10), digitChar (n / 10 % 10), digitChar (n % 10)]

/-- Gregorian leap year rule, as implemented by the host `Date`. -/
def isLeapYear (y : Nat) : Bool := y % 4 = 0 && (y % 100 ≠ 0 || y % 400 = 0)

/-- Number of days of a month (1-12) in the proleptic Gregorian calendar. -/
def daysInMonth (y m : Nat) : Nat :=
  if m = 2 then (if isLeapYear y then 29 else 28)
  else if m = 4 || m = 6 || m = 9 || m = 11 then 30
  else 31

/-- Validity of a calendar date. -/
def calendarValid (y m d : Nat) : Bool :=
  1 ≤ m && m ≤ 12 && 1 ≤ d && d ≤ daysInMonth y m

/-- Model of `toIsoDate`: the source builds `new Date(Date.UTC(y, m-1, d))`,
checks that the UTC components round-trip, and renders
`toISOString().slice(0, 10)`.  The round-trip check succeeds exactly for
valid calendar dates whose year `Date.UTC` does not remap: `Date.UTC` maps
years 0-99 to 1900+y, so those years always fail the check; years above 9999
cannot reach this function (every caller parses at most four digits). -/
def toIsoDate (year month day : Nat) : Option String :=
  if 100 ≤ year && year ≤ 9999 && calendarValid year month day then
    some (String.mk (pad4L year ++ '-' :: (pad2L month ++ '-' :: pad2L day)))
  else none

/-- Two-digit years at or above 70 resolve to the 1900s, the rest to the
2000s (source `normalizeTwoDigitYear`). -/
def normalizeTwoDigitYear (twoDigitYear : Nat) : Nat :=
  if twoDigitYear ≥ 70 then 1900 + twoDigitYear else 2000 + twoDigitYear

/-- The anchored match `^(\d{4})-(\d{2})-(\d{2})$` with the three captured
groups converted by `Number`. -/
def isoDateMatch (s : String) : Option (Nat × Nat × Nat) :=
  match s.data with
  | [y1, y2, y3, y4, c1, m1, m2, c2, d1, d2] =>
    if c1 = '-' && c2 = '-' && [y1, y2, y3, y4, m1, m2, d1, d2].all isAsciiDigit then
      some (digitsToNat [y1, y2, y3, y4], digitsToNat [m1, m2], digitsToNat [d1, d2])
    else none
  | _ => none

/-- The anchored match of one or two digits, a slash-or-dash separator, one or two digits, another separator, and two to four digits.  The regular
expression matches exactly when the maximal digit run at each position has the
required length and the string ends after the year group, which is what the
span-based parser checks; the year group is kept as its token so the caller
can inspect its length. -/
def slashDateMatch (s : String) : Option (Nat × Nat × List Char) :=
  let (mo, r1) := s.data.span isAsciiDigit
  if mo.length = 0 || mo.length > 2 then none
  else
    match r1 with
    | sep1 :: r2 =>
      if sep1 = '/' || sep1 = '-' then
        let (da, r3) := r2.span isAsciiDigit
        if da.length = 0 || da.length > 2 then none
        else
          match r3 with
          | sep2 :: r4 =>
            if sep2 = '/' || sep2 = '-' then
              let (yr, r5) := r4.span isAsciiDigit
              if 2 ≤ yr.length && yr.length ≤ 4 && r5 = [] then
                some (digitsToNat mo, digitsToNat da, yr)
              else none
            else none
          | [] => none
      else none
    | [] => none

/-- Model of the fallback `new Date(Date.parse(s)).toISOString()`, restricted
to the ECMAScript date-time string format that `toISOString` itself emits
(`YYYY-MM-DDTHH:MM:SS.sssZ`): the only portable part of `Date.parse`, and the
only shape the pipeline ever feeds back into it.  A conforming valid string is
its own canonical rendering, so the model returns it unchanged; every other
input yields `none`, in which case the caller passes the value through. -/
def dateParseToIso (s : String) : Option String :=
  match s.data with
  | [y1, y2, y3, y4, ca, mo1, mo2, cb, d1, d2, ct, h1, h2, cc, mi1, mi2, cd, s1, s2, ce, f1, f2, f3, cz] =>
    if ca = '-' && cb = '-' && ct = 'T' && cc = ':' && cd = ':' && ce = '.' && cz = 'Z' &&
       [y1, y2, y3, y4, mo1, mo2, d1, d2, h1, h2, mi1, mi2, s1, s2, f1, f2, f3].all isAsciiDigit &&
       calendarValid (digitsToNat [y1, y2, y3, y4]) (digitsToNat [mo1, mo2]) (digitsToNat [d1, d2]) &&
       digitsToNat [h1, h2] ≤ 23 && digitsToNat [mi1, mi2] ≤ 59 && digitsToNat [s1, s2] ≤ 59 then
      some s
    else none
  | _ => none

/-- Source `normalizeDateString`: NFKC-normalize and trim, then try the ISO
date form (the match returns even when the calendar check fails), the slashed
or dashed `M/D/Y` form with the two-digit-year rule, and finally the general
date-time fallback. -/
def normalizeDateString (value : String) : Option String :=
  let trimmed := jsTrim (nfkc value)
  if trimmed = "" then none
  else
    match isoDateMatch trimmed with
    | some (y, m, d) => toIsoDate y m d
    | none =>
      match slashDateMatch trimmed with
      | some (month, day, yearToken) =>
        let rawYear := digitsToNat yearToken
        let year := if yearToken.length = 2 then normalizeTwoDigitYear rawYear else rawYear
        toIsoDate year month day
      | none => dateParseToIso trimmed

/-- The anchored match `^(\d*)(?:\.(\d*))?$` of the decimal normalizer,
returning the integer and fraction tokens (the fraction token of an absent
group reads as the empty token, as in the source where it defaults to ""). -/
def decimalBodyMatch (l : List Char) : Option (List Char × List Char) :=
  let (integerToken, r1) := l.span isAsciiDigit
  match r1 with
  | [] => some (integerToken, [])
  | '.' :: r2 =>
    let (fractionToken, r3) := r2.span isAsciiDigit
    if r3 = [] then some (integerToken, fractionToken) else none
  | _ => none

/-- The replace `^0+(?=\d)`: drop leading zeros while another digit follows. -/
def stripLeadingZerosL : List Char → List Char
  | [] => []
  | c :: rest =>
    if c = '0' && (match rest with | c2 :: _ => isAsciiDigit c2 | [] => false) then
      stripLeadingZerosL rest
    else c :: rest

/-- Final rendering step of the decimal normalizer: sign of the scaled value,
integer part, a dot and exactly six fractional digits (the source divides the
absolute value by the scale and pads the remainder with `padStart`). -/
def renderScaled (scaled : Int) : String :=
  let absolute := scaled.natAbs
  String.mk ((if scaled < 0 then ['-'] else []) ++
    (natDigits (absolute / 1000000) ++ '.' :: pad6L (absolute % 1000000)))

/-- Grammar-and-scaling tail of `normalizeDecimalString`, from the digit
grammar match on: six-digit scaling with round-half-up on the first dropped
digit, sign application avoiding negative zero, and rendering. -/
def normalizeDecimalTail (isNegative : Bool) (t4 : List Char) : Option String :=
  match decimalBodyMatch t4 with
  | none => none
  | some (integerToken, fractionToken) =>
    if integerToken.length = 0 && fractionToken.length = 0 then none
    else
      let normalizedInteger := stripLeadingZerosL integerToken
      let normalizedFraction := fractionToken.take 6 ++ List.replicate (6 - fractionToken.length) '0'
      let roundingDigit :=
        if fractionToken.length > 6 then charToDigit (fractionToken.getD 6 '0') else 0
      let scaled0 : Int :=
        (digitsToNat normalizedInteger : Int) * 1000000 + (digitsToNat normalizedFraction : Int)
      let scaled1 := if roundingDigit ≥ 5 then scaled0 + 1 else scaled0
      let scaled := if isNegative && scaled1 ≠ 0 then -scaled1 else scaled1
      some (renderScaled scaled)

/-- Explicit-sign step of `normalizeDecimalString`: a leading `+` is dropped,
a leading `-` is dropped and forces the negative flag. -/
def normalizeDecimalSigned (isNegative1 : Bool) (t3 : List Char) : Option String :=
  if t3.head? = some '+' then normalizeDecimalTail isNegative1 (t3.drop 1)
  else if t3.head? = some '-' then normalizeDecimalTail true (t3.drop 1)
  else normalizeDecimalTail isNegative1 t3

/-- Source `normalizeDecimalString`: NFKC-normalize and trim; treat a value
wrapped in parentheses as negative; strip the currency signs, commas and all
whitespace; then consume an explicit sign and apply the scaling tail. -/
def normalizeDecimalString (value : String) : Option String :=
  let trimmed0 := jsTrimL (nfkc value).data
  if trimmed0 = [] then none
  else
    let (isNegative1, t1) :=
      if trimmed0.head? = some '(' && trimmed0.getLast? = some ')' then
        (true, (trimmed0.drop 1).dropLast)
      else (false, trimmed0)
    let t2 := t1.filter fun c => !(c = '$' || c = '€' || c = '£' || c = '₹' || c = ',')
    let t3 := t2.filter fun c => !isJsWs c
    if t3 = [] then none
    else normalizeDecimalSigned isNegative1 t3

/-- Source `normalizeRuleKey`: the empty or absent key maps to the empty
string; otherwise NFKC-normalize, trim, lower-case and turn whitespace runs
into underscores. -/
def normalizeRuleKey : Option String → String
  | none => ""
  | some rawKey =>
    if rawKey = "" then ""
    else underscoreWs (asciiToLower (jsTrim (nfkc rawKey)))

/-- Match of an anchored alternation `(^|_)(a1|a2|...)$` against a key: the
key equals one of the alternatives or ends with an underscore followed by
one. -/
def keyMatchesSuffix (alts : List String) (key : String) : Bool :=
  alts.any fun a => key = a || List.isSuffixOf ('_' :: a.data) key.data

/-- Alternatives of the date-role regular expression. -/
def dateKeyAlts : List String :=
  ["date", "time", "timestamp", "datetime", "posted_at", "occurred_at",
   "transaction_date", "value_date"]

/-- Source `isDateFieldKey`. -/
def isDateFieldKey (rawKey : Option String) : Bool :=
  keyMatchesSuffix dateKeyAlts (normalizeRuleKey rawKey)

/-- Alternatives of the numeric-role regular expression. -/
def numericKeyAlts : List String :=
  ["amount", "amt", "debit", "credit", "balance", "fee", "total", "value"]

/-- Source `isNumericFieldKey`. -/
def isNumericFieldKey (rawKey : Option String) : Bool :=
  keyMatchesSuffix numericKeyAlts (normalizeRuleKey rawKey)

/-- Source `LOWERCASE_TEXT_FIELD_KEYS`. -/
def LOWERCASE_TEXT_FIELD_KEYS : List String :=
  ["description", "merchant", "memo", "narration", "payee", "details"]

/-- Source `isLowercaseTextFieldKey`. -/
def isLowercaseTextFieldKey (rawKey : Option String) : Bool :=
  LOWERCASE_TEXT_FIELD_KEYS.contains (normalizeRuleKey rawKey)

/-- JSON values as they occur in the raw records of this pipeline.  The CSV
extractor emits strings and nulls, the PDF stub emits a string field, and
persisted raw JSON may additionally carry booleans, arrays and nested
objects.  Objects are association lists in property-enumeration order;
JavaScript objects cannot hold a key twice.  (JavaScript numbers do not occur
in any record this repository produces, and are not part of the model.) -/
inductive Jv where
  | null
  | str (s : String)
  | bool (b : Bool)
  | arr (items : List Jv)
  | obj (fields : List (String × Jv))

/-- Code-point comparison of key character lists, total and transitive. -/
def keyLeChars : List Char → List Char → Bool
  | [], _ => true
  | _ :: _, [] => false
  | a :: as, b :: bs =>
    if a.toNat < b.toNat then true
    else if b.toNat < a.toNat then false
    else keyLeChars as bs

/-- JavaScript `Array.prototype.sort` with the default comparator orders keys
by UTF-16 code units; on basic-plane characters (every key this pipeline can
see) that is code-point lexicographic order, modelled here. -/
def keyLe (a b : String) : Bool := keyLeChars a.data b.data

/-- Order on object entries by key, used to model `Object.keys(...).sort()`. -/
def pairLe (p q : String × Jv) : Prop := keyLe p.1 q.1 = true

instance : DecidableRel pairLe := fun p q => by
  unfold pairLe; infer_instance

theorem keyLeChars_cons_iff (x y : Char) (xs ys : List Char) :
    keyLeChars (x :: xs) (y :: ys) = true ↔
      x.toNat < y.toNat ∨ (x.toNat = y.toNat ∧ keyLeChars xs ys = true) := by
  simp only [keyLeChars]
  by_cases h1 : x.toNat < y.toNat
  · simp [h1]
  · by_cases h2 : y.toNat < x.toNat
    · simp [h1, h2]
      omega
    · simp only [if_neg h1, if_neg h2]
      constructor
      · intro hr
        exact Or.inr ⟨by omega, hr⟩
      · rintro (h | ⟨_, hr⟩)
        · omega
        · exact hr

theorem keyLeChars_total (a b : List Char) :
    keyLeChars a b = true ∨ keyLeChars b a = true := by
  induction a generalizing b with
  | nil => left; rfl
  | cons x xs ih =>
    cases b with
    | nil => right; rfl
    | cons y ys =>
      rw [keyLeChars_cons_iff, keyLeChars_cons_iff]
      rcases ih ys with h | h
      · by_cases hxy : x.toNat < y.toNat
        · exact Or.inl (Or.inl hxy)
        · by_cases hyx : y.toNat < x.toNat
          · exact Or.inr (Or.inl hyx)
          · exact Or.inl (Or.inr ⟨by omega, h⟩)
      · by_cases hxy : x.toNat < y.toNat
        · exact Or.inl (Or.inl hxy)
        · by_cases hyx : y.toNat < x.toNat
          · exact Or.inr (Or.inl hyx)
          · exact Or.inr (Or.inr ⟨by omega, h⟩)

theorem keyLeChars_trans (a b c : List Char) (hab : keyLeChars a b = true)
    (hbc : keyLeChars b c = true) : keyLeChars a c = true := by
  induction a generalizing b c with
  | nil => rfl
  | cons x xs ih =>
    cases b with
    | nil => simp [keyLeChars] at hab
    | cons y ys =>
      cases c with
      | nil => simp [keyLeChars] at hbc
      | cons z zs =>
        rw [keyLeChars_cons_iff] at hab hbc ⊢
        rcases hab with h1 | ⟨h1, r1⟩
        · rcases hbc with h2 | ⟨h2, _⟩
          · exact Or.inl (by omega)
          · exact Or.inl (by omega)
        · rcases hbc with h2 | ⟨h2, r2⟩
          · exact Or.inl (by omega)
          · exact Or.inr ⟨by omega, ih ys zs r1 r2⟩

theorem char_eq_of_toNat_eq {a b : Char} (h : a.toNat = b.toNat) : a = b :=
  Char.eq_of_val_eq (UInt32.ext h)

theorem keyLeChars_antisymm (a b : List Char) (hab : keyLeChars a b = true)
    (hba : keyLeChars b a = true) : a = b := by
  induction a generalizing b with
  | nil =>
    cases b with
    | nil => rfl
    | cons y ys => simp [keyLeChars] at hba
  | cons x xs ih =>
    cases b with
    | nil => simp [keyLeChars] at hab
    | cons y ys =>
      rw [keyLeChars_cons_iff] at hab hba
      rcases hab with h1 | ⟨h1, r1⟩
      · rcases hba with h2 | ⟨h2, _⟩ <;> omega
      · rcases hba with h2 | ⟨h2, r2⟩
        · omega
        · rw [char_eq_of_toNat_eq h1, ih ys r1 r2]

instance : IsTotal (String × Jv) pairLe :=
  ⟨fun p q => keyLeChars_total p.1.data q.1.data⟩

instance : IsTrans (String × Jv) pairLe :=
  ⟨fun _ _ _ hab hbc => keyLeChars_trans _ _ _ hab hbc⟩

/-- Model of `Object.keys(o).sort()` together with the per-key traversal that
follows it: sort the entry list by key.  JavaScript objects cannot repeat a
key, so sorting the entries and sorting the key set are the same operation. -/
def sortPairs (fields : List (String × Jv)) : List (String × Jv) :=
  List.insertionSort pairLe fields

theorem sizeOf_lt_of_mem_sortPairs {p : String × Jv} {fields : List (String × Jv)}
    (h : p ∈ sortPairs fields) : sizeOf p < sizeOf fields := by
  have hperm : (sortPairs fields).Perm fields := List.perm_insertionSort pairLe fields
  have h2 := hperm.sizeOf_eq_sizeOf
  have := List.sizeOf_lt_of_mem h
  omega

theorem sortPairs_sizeOf (fields : List (String × Jv)) :
    sizeOf (sortPairs fields) = sizeOf fields :=
  (List.perm_insertionSort pairLe fields).sizeOf_eq_sizeOf

/-- String branch of source `normalizeScalarValue`: NFKC-normalize and trim,
then try date normalization when the key has a date role, decimal
normalization when it has a numeric role, lower-case-and-collapse when it is
one of the free-text keys, and otherwise return the trimmed string. -/
def normalizeScalarString (s : String) (fieldKey : Option String) : String :=
  let normalizedString := jsTrim (nfkc s)
  match (if isDateFieldKey fieldKey then normalizeDateString normalizedString else none) with
  | some d => d
  | none =>
    match (if isNumericFieldKey fieldKey then normalizeDecimalString normalizedString else none) with
    | some c => c
    | none =>
      if isLowercaseTextFieldKey fieldKey then collapseWs (asciiToLower normalizedString)
      else normalizedString

/-- Source `normalizeScalarValue` on the scalar values of this pipeline:
booleans pass through, strings go through `normalizeScalarString`. -/
def normalizeScalarValue : Jv → Option String → Jv
  | .bool b, _ => .bool b
  | .str s, fieldKey => .str (normalizeScalarString s fieldKey)
  | v, _ => v

/-- Source `canonicalizeRowValue`: null stays null, arrays canonicalize
element-wise with no field key, objects sort their entries by key and
canonicalize each value under its own key, scalars go through the scalar
normalizer. -/
def canonicalizeRowValue : Jv → Option String → Jv
  | .null, _ => .null
  | .str s, fieldKey => normalizeScalarValue (.str s) fieldKey
  | .bool b, fieldKey => normalizeScalarValue (.bool b) fieldKey
  | .arr items, _ => .arr (items.attach.map fun x => canonicalizeRowValue x.1 none)
  | .obj fields, _ =>
    .obj ((sortPairs fields).attach.map fun p => (p.1.1, canonicalizeRowValue p.1.2 (some p.1.1)))
termination_by v _ => sizeOf v
decreasing_by
  · have := List.sizeOf_lt_of_mem x.2
    simp only [Jv.arr.sizeOf_spec]
    omega
  · have h1 := sizeOf_lt_of_mem_sortPairs p.2
    simp only [Jv.obj.sizeOf_spec]
    cases hp : p.1 with
    | mk k v =>
      rw [hp] at h1
      simp only [Prod.mk.sizeOf_spec] at h1
      simp only [hp]
      omega

/-- Hexadecimal digit character of a value below sixteen. -/
def hexDigitChar (n : Nat) : Char :=
  if n < 10 then digitChar n
  else if n = 10 then 'a'
  else if n = 11 then 'b'
  else if n = 12 then 'c'
  else if n = 13 then 'd'
  else if n = 14 then 'e'
  else 'f'

/-- One escaped character of `JSON.stringify` string serialization. -/
def jsonEscapeChar (c : Char) : List Char :=
  if c = '"' then ['\\', '"']
  else if c = '\\' then ['\\', '\\']
  else if c.toNat = 8 then ['\\', 'b']
  else if c = '\t' then ['\\', 't']
  else if c = '\n' then ['\\', 'n']
  else if c.toNat = 12 then ['\\', 'f']
  else if c = '\r' then ['\\', 'r']
  else if c.toNat < 32 then
    ['\\', 'u', '0', '0', digitChar (c.toNat / 16), hexDigitChar (c.toNat % 16)]
  else [c]

/-- `JSON.stringify` of a string value. -/
def jsonQuote (s : String) : String :=
  String.mk ('"' :: (s.data.map jsonEscapeChar).flatten ++ ['"'])

/-- Source `stableSerialize` on the value domain of this pipeline: null,
booleans and strings serialize as their JSON literals, arrays element-wise in
order, objects with keys sorted and each entry as `"key":value` (there is no
finite-number branch because numbers cannot occur in these records). -/
def stableSerialize : Jv → String
  | .null => "null"
  | .str s => jsonQuote s
  | .bool b => if b then "true" else "false"
  | .arr items =>
    "[" ++ String.intercalate "," (items.attach.map fun x => stableSerialize x.1) ++ "]"
  | .obj fields =>
    "\x7b" ++ String.intercalate ","
      ((sortPairs fields).attach.map fun p => jsonQuote p.1.1 ++ ":" ++ stableSerialize p.1.2) ++
      "\x7d"
termination_by v => sizeOf v
decreasing_by
  · have := List.sizeOf_lt_of_mem x.2
    simp only [Jv.arr.sizeOf_spec]
    omega
  · have h1 := sizeOf_lt_of_mem_sortPairs p.2
    simp only [Jv.obj.sizeOf_spec]
    cases hp : p.1 with
    | mk k v =>
      rw [hp] at h1
      simp only [Prod.mk.sizeOf_spec] at h1
      simp only [hp]
      omega

/-- Truncation to a 32-bit word. -/
def w32 (n : Nat) : Nat := n % 4294967296

/-- Bitwise combination of two 32-bit words, one fuel step per bit. -/
def bitwiseAux (f : Bool → Bool → Bool) : Nat → Nat → Nat → Nat
  | 0, _, _ => 0
  | fuel + 1, a, b =>
    (if f (a % 2 == 1) (b % 2 == 1) then 1 else 0) + 2 * bitwiseAux f fuel (a / 2) (b / 2)

/-- 32-bit exclusive or. -/
def xor32 (a b : Nat) : Nat := bitwiseAux (fun x y => x != y) 32 a b

/-- 32-bit conjunction. -/
def and32 (a b : Nat) : Nat := bitwiseAux (fun x y => x && y) 32 a b

/-- 32-bit complement. -/
def not32 (a : Nat) : Nat := 4294967295 - w32 a

/-- 32-bit rotation to the right by `k`. -/
def rotr32 (k a : Nat) : Nat := w32 (a / 2 ^ k + a % 2 ^ k * 2 ^ (32 - k))

/-- 32-bit logical shift to the right by `k`. -/
def shr32 (k a : Nat) : Nat := a / 2 ^ k

/-- The SHA-256 round constants. -/
def sha256K : List Nat :=
  [1116352408, 1899447441, 3049323471, 3921009573, 961987163,
   1508970993, 2453635748, 2870763221, 3624381080, 310598401,
   607225278, 1426881987, 1925078388, 2162078206, 2614888103,
   3248222580, 3835390401, 4022224774, 264347078, 604807628,
   770255983, 1249150122, 1555081692, 1996064986, 2554220882,
   2821834349, 2952996808, 3210313671, 3336571891, 3584528711,
   113926993, 338241895, 666307205, 773529912, 1294757372,
   1396182291, 1695183700, 1986661051, 2177026350, 2456956037,
   2730485921, 2820302411, 3259730800, 3345764771, 3516065817,
   3600352804, 4094571909, 275423344, 430227734, 506948616,
   659060556, 883997877, 958139571, 1322822218, 1537002063,
   1747873779, 1955562222, 2024104815, 2227730452, 2361852424,
   2428436474, 2756734187, 3204031479, 3329325298]

/-- The SHA-256 initial hash state. -/
def sha256InitH : List Nat :=
  [1779033703, 3144134277, 1013904242, 2773480762,
   1359893119, 2600822924, 528734635, 1541459225]

/-- Big-endian 32-bit words of a byte list. -/
def bytesToWords : List Nat → List Nat
  | b0 :: b1 :: b2 :: b3 :: rest => (b0 * 16777216 + b1 * 65536 + b2 * 256 + b3) :: bytesToWords rest
  | _ => []

/-- Message-schedule extension: appends one word per fuel step. -/
def sha256ExtendAux : Nat → List Nat → List Nat
  | 0, w => w
  | fuel + 1, w =>
    let n := w.length
    let x15 := w.getD (n - 15) 0
    let x2 := w.getD (n - 2) 0
    let s0 := xor32 (rotr32 7 x15) (xor32 (rotr32 18 x15) (shr32 3 x15))
    let s1 := xor32 (rotr32 17 x2) (xor32 (rotr32 19 x2) (shr32 10 x2))
    sha256ExtendAux fuel (w ++ [w32 (w.getD (n - 16) 0 + s0 + w.getD (n - 7) 0 + s1)])

/-- One SHA-256 compression round over the eight-word working state. -/
def sha256Round (state : List Nat) (kw : Nat × Nat) : List Nat :=
  match state with
  | [a, b, c, d, e, f, g, h] =>
    let s1 := xor32 (rotr32 6 e) (xor32 (rotr32 11 e) (rotr32 25 e))
    let ch := xor32 (and32 e f) (and32 (not32 e) g)
    let temp1 := w32 (h + s1 + ch + kw.1 + kw.2)
    let s0 := xor32 (rotr32 2 a) (xor32 (rotr32 13 a) (rotr32 22 a))
    let maj := xor32 (and32 a b) (xor32 (and32 a c) (and32 b c))
    let temp2 := w32 (s0 + maj)
    [w32 (temp1 + temp2), a, b, c, w32 (d + temp1), e, f, g]
  | other => other

/-- SHA-256 compression of one 64-byte block into the hash state. -/
def sha256Compress (hs : List Nat) (block : List Nat) : List Nat :=
  let w := sha256ExtendAux 48 (bytesToWords block)
  let out := (sha256K.zip w).foldl sha256Round hs
  (hs.zip out).map fun p => w32 (p.1 + p.2)

/-- Big-endian bytes of a value, fixed width. -/
def beBytes : Nat → Nat → List Nat
  | 0, _ => []
  | k + 1, n => beBytes k (n / 256) ++ [n % 256]

/-- SHA-256 padding: a 0x80 byte, zeros up to 56 modulo 64, and the
big-endian 64-bit bit length. -/
def sha256Pad (msg : List Nat) : List Nat :=
  msg ++ 128 :: List.replicate ((119 - msg.length % 64) % 64) 0 ++ beBytes 8 (8 * msg.length)

/-- Split a byte list into 64-byte blocks. -/
def chunks64Aux : Nat → List Nat → List (List Nat)
  | 0, _ => []
  | _, [] => []
  | fuel + 1, l => l.take 64 :: chunks64Aux fuel (l.drop 64)

/-- Split a byte list into 64-byte blocks. -/
def chunks64 (l : List Nat) : List (List Nat) := chunks64Aux (l.length + 1) l

/-- Lowercase hexadecimal rendering of a 32-bit word. -/
def wordToHex (n : Nat) : List Char :=
  [hexDigitChar (n / 268435456 % 16), hexDigitChar (n / 16777216 % 16),
   hexDigitChar (n / 1048576 % 16), hexDigitChar (n / 65536 % 16),
   hexDigitChar (n / 4096 % 16), hexDigitChar (n / 256 % 16),
   hexDigitChar (n / 16 % 16), hexDigitChar (n % 16)]

/-- SHA-256 of a byte list, rendered as 64 lowercase hexadecimal characters. -/
def sha256Hex (msg : List Nat) : String :=
  String.mk ((((chunks64 (sha256Pad msg)).foldl sha256Compress sha256InitH).map wordToHex).flatten)

/-- UTF-8 encoding of one character. -/
def utf8Char (c : Char) : List Nat :=
  let n := c.toNat
  if n < 128 then [n]
  else if n < 2048 then [192 + n / 64, 128 + n % 64]
  else if n < 65536 then [224 + n / 4096, 128 + n / 64 % 64, 128 + n % 64]
  else [240 + n / 262144, 128 + n / 4096 % 64, 128 + n / 64 % 64, 128 + n % 64]

/-- UTF-8 bytes of a string. -/
def utf8Bytes (s : String) : List Nat := (s.data.map utf8Char).flatten

/-- Source `hashSha256`: SHA-256 of the UTF-8 bytes, as lowercase hex. -/
def hashSha256 (value : String) : String := sha256Hex (utf8Bytes value)

/-- Source `ExtractedRecord`. -/
structure ExtractedRecord where
  rawJson : List (String × Jv)
  rowIndex : Nat

/-- Source `ExtractedResult`. -/
structure ExtractedResult where
  rawMimeType : String
  records : List ExtractedRecord

/-- Source `NormalizedRecord`. -/
structure NormalizedRecord where
  rawJson : List (String × Jv)
  rowIndex : Nat
  rowSha256 : String

/-- Source `NormalizedResult`. -/
structure NormalizedResult where
  rawMimeType : String
  records : List NormalizedRecord

/-- The hash a record receives inside `normalizeExtractedRecords`: SHA-256 of
the stable serialization of the canonicalized row (the raw JSON object is
canonicalized with no ambient field key). -/
def rowSha256OfRawJson (rawJson : List (String × Jv)) : String :=
  hashSha256 (stableSerialize (canonicalizeRowValue (.obj rawJson) none))

/-- The canonical row structure that `canonicalizeRowValue` produces for an
object: entries sorted by key, each value canonicalized under its own key
(the plain-map rendering of the attach-map in the definition). -/
def canonicalRowFields (rawJson : List (String × Jv)) : List (String × Jv) :=
  (sortPairs rawJson).map fun q => (q.1, canonicalizeRowValue q.2 (some q.1))

/-- Source `normalizeExtractedRecords`: every record keeps its original raw
JSON and row index and is assigned the canonical-content hash. -/
def normalizeExtractedRecords (extracted : ExtractedResult) : NormalizedResult :=
  { rawMimeType := extracted.rawMimeType
    records := extracted.records.map fun record =>
      { rawJson := record.rawJson
        rowIndex := record.rowIndex
        rowSha256 := rowSha256OfRawJson record.rawJson } }

/-- Source `NormalizedTransactionCandidate`. -/
structure NormalizedTransactionCandidate where
  rowSha256 : String
  occurredAt : Option String
  amount : String
  currency : String
  description : String
  merchant : Option String
  accountId : Option String
  category : Option String
  normalizationVersion : String
deriving DecidableEq

/-- Source key lists used by the deriver. -/
def NORMALIZED_AMOUNT_KEYS : List String :=
  ["amount", "amt", "debit", "credit", "value", "total", "transaction_amount"]

/-- Source currency candidate keys. -/
def NORMALIZED_CURRENCY_KEYS : List String := ["currency", "currency_code", "ccy", "curr"]

/-- Source description candidate keys. -/
def NORMALIZED_DESCRIPTION_KEYS : List String :=
  ["description", "memo", "narration", "details", "note", "remarks"]

/-- Source merchant candidate keys. -/
def NORMALIZED_MERCHANT_KEYS : List String := ["merchant", "payee", "merchant_name"]

/-- Source account candidate keys. -/
def NORMALIZED_ACCOUNT_KEYS : List String := ["account_id", "account", "account_number", "iban"]

/-- Source category candidate keys. -/
def NORMALIZED_CATEGORY_KEYS : List String := ["category", "type", "txn_type"]

/-- Source occurred-at candidate keys. -/
def NORMALIZED_OCCURRED_AT_KEYS : List String :=
  ["occurred_at", "transaction_date", "posted_at", "posted_date", "date", "value_date",
   "timestamp", "datetime"]

/-- Source `normalizeFlatString` on a possibly absent value: absent or null
yields nothing; strings are NFKC-normalized, trimmed and whitespace-collapsed
and must be non-empty; booleans render as `true`/`false`; arrays and objects
yield nothing (the source's trailing `return null`). -/
def normalizeFlatString : Option Jv → Option String
  | none => none
  | some .null => none
  | some (.str v) =>
    let normalized := collapseWs (jsTrim (nfkc v))
    if normalized = "" then none else some normalized
  | some (.bool b) => some (if b then "true" else "false")
  | some (.arr _) => none
  | some (.obj _) => none

/-- Source `buildFieldLookup` followed by `Map.get`: the value of the last
entry whose normalized key matches (later `Map.set` calls overwrite earlier
ones; JavaScript enumerates the object's properties in insertion order for
the string keys this pipeline produces). -/
def lookupNormalizedField (rawJson : List (String × Jv)) (key : String) : Option Jv :=
  rawJson.foldl (fun acc p => if normalizeRuleKey (some p.1) = key then some p.2 else acc) none

/-- Source `pickFirstNormalizedValue`: the first candidate key whose value
flat-normalizes to a string. -/
def pickFirstNormalizedValue (rawJson : List (String × Jv)) (candidateKeys : List String) :
    Option String :=
  match candidateKeys with
  | [] => none
  | candidateKey :: rest =>
    match normalizeFlatString (lookupNormalizedField rawJson candidateKey) with
    | some normalized => some normalized
    | none => pickFirstNormalizedValue rawJson rest

/-- The character class kept by the currency normalizer's strip of
`[^A-Z$€£₹]`. -/
def allowedCurrencyChar (c : Char) : Bool :=
  ('A' ≤ c && c ≤ 'Z') || c = '$' || c = '€' || c = '£' || c = '₹'

/-- Source `normalizeCurrencyCode`: nothing and the empty string are rejected;
otherwise NFKC-normalize, trim, upper-case, strip whitespace and every
character outside `A`-`Z` and the four currency signs; a three-character
result passes through, a single currency sign maps to its code, everything
else is rejected. -/
def normalizeCurrencyCode (value : Option String) : Option String :=
  match value with
  | none => none
  | some v =>
    if v = "" then none
    else
      let cleaned := String.mk (((asciiToUpper (jsTrim (nfkc v))).data.filter
        fun c => !isJsWs c).filter allowedCurrencyChar)
      if cleaned.length = 3 then some cleaned
      else if cleaned = "$" then some "USD"
      else if cleaned = "€" then some "EUR"
      else if cleaned = "£" then some "GBP"
      else if cleaned = "₹" then some "INR"
      else none

/-- The optional `options` argument of the deriver. -/
structure DeriveOptions where
  normalizationVersion : Option String := none
  defaultCurrency : Option String := none

/-- Source `deriveNormalizedTransactionsFromRows`: for every row, resolve the
amount (first amount-role key whose value flat-normalizes, then the decimal
normalizer), the currency (normalized, else the normalized default), and the
description; a missing amount, currency or description drops the row.  The
remaining fields are optional.  (The source's falsy checks on `amount`,
`currency` and `description` coincide with the `Option` matches here: none of
the normalizers can return the empty string.) -/
def deriveNormalizedTransactionsFromRows (rows : List NormalizedRecord)
    (options : DeriveOptions) : List NormalizedTransactionCandidate :=
  let normalizationVersion :=
    let t := jsTrim (options.normalizationVersion.getD "v1")
    if t = "" then "v1" else t
  let defaultCurrency := normalizeCurrencyCode options.defaultCurrency
  rows.flatMap fun row =>
    match (pickFirstNormalizedValue row.rawJson NORMALIZED_AMOUNT_KEYS).bind
        normalizeDecimalString with
    | none => []
    | some amount =>
      match (normalizeCurrencyCode (pickFirstNormalizedValue row.rawJson
          NORMALIZED_CURRENCY_KEYS)).or defaultCurrency with
      | none => []
      | some currency =>
        match pickFirstNormalizedValue row.rawJson NORMALIZED_DESCRIPTION_KEYS with
        | none => []
        | some description =>
          let merchant := pickFirstNormalizedValue row.rawJson NORMALIZED_MERCHANT_KEYS
          let accountId := pickFirstNormalizedValue row.rawJson NORMALIZED_ACCOUNT_KEYS
          let category := pickFirstNormalizedValue row.rawJson NORMALIZED_CATEGORY_KEYS
          let occurredAt := (pickFirstNormalizedValue row.rawJson
            NORMALIZED_OCCURRED_AT_KEYS).bind normalizeDateString
          [{ rowSha256 := row.rowSha256
             occurredAt := occurredAt
             amount := amount
             currency := currency
             description := description
             merchant := merchant
             accountId := accountId
             category := category
             normalizationVersion := normalizationVersion }]

/-- Failures `extractUpload` can throw: its own unsupported-format error, or
one of the quoting errors of the csv-parse library (which is used with its
default strict quoting: an unclosed quote, garbage after a closing quote, or
a quote inside an unquoted field each abort the parse). -/
inductive UploadError where
  | unsupportedFormat
  | csvQuoteNotClosed
  | csvInvalidClosingQuote
  | csvInvalidOpeningQuote
deriving DecidableEq

/-- The characters csv-parse's `trim` option strips around field values. -/
def isCsvFieldTrimChar (c : Char) : Bool := c = ' ' || c = '\t'

/-- Right-trim of an unquoted field value. -/
def csvRtrim (l : List Char) : List Char :=
  (l.reverse.dropWhile isCsvFieldTrimChar).reverse

/-- Terminator that ended a CSV field. -/
inductive CsvTerm where
  | comma
  | newline
  | eof
deriving DecidableEq

/-- Scan of an unquoted CSV field (accumulator reversed): ends at a comma, a
record delimiter or the end of input; a quote inside the field aborts with
the csv-parse invalid-opening-quote error.  The fuel is at least the input
length, so the fallback is never reached. -/
def csvUnquoted : Nat → List Char → List Char → Except UploadError (String × CsvTerm × List Char)
  | _, acc, [] => .ok (String.mk (csvRtrim acc.reverse), .eof, [])
  | 0, acc, _ => .ok (String.mk (csvRtrim acc.reverse), .eof, [])
  | fuel + 1, acc, c :: rest =>
    if c = ',' then .ok (String.mk (csvRtrim acc.reverse), .comma, rest)
    else if c = '\r' then
      match rest with
      | '\n' :: rest2 => .ok (String.mk (csvRtrim acc.reverse), .newline, rest2)
      | _ => .ok (String.mk (csvRtrim acc.reverse), .newline, rest)
    else if c = '\n' then .ok (String.mk (csvRtrim acc.reverse), .newline, rest)
    else if c = '"' then .error .csvInvalidOpeningQuote
    else csvUnquoted fuel (c :: acc) rest

/-- After the closing quote of a quoted field: whitespace may follow, then a
comma, a record delimiter or the end of input; anything else is the csv-parse
invalid-closing-quote error. -/
def csvAfterQuote (value : String) (l : List Char) :
    Except UploadError (String × CsvTerm × List Char) :=
  match l.dropWhile isCsvFieldTrimChar with
  | [] => .ok (value, .eof, [])
  | ',' :: rest => .ok (value, .comma, rest)
  | '\r' :: '\n' :: rest => .ok (value, .newline, rest)
  | '\r' :: rest => .ok (value, .newline, rest)
  | '\n' :: rest => .ok (value, .newline, rest)
  | _ => .error .csvInvalidClosingQuote

/-- Scan of a quoted CSV field body (accumulator reversed): a doubled quote
is an escaped quote, a single quote closes the field, and running out of
input is the csv-parse quote-not-closed error. -/
def csvQuoted : Nat → List Char → List Char → Except UploadError (String × CsvTerm × List Char)
  | _, _, [] => .error .csvQuoteNotClosed
  | 0, _, _ => .error .csvQuoteNotClosed
  | fuel + 1, acc, c :: rest =>
    if c = '"' then
      match rest with
      | '"' :: rest2 => csvQuoted fuel ('"' :: acc) rest2
      | _ => csvAfterQuote (String.mk acc.reverse) rest
    else csvQuoted fuel (c :: acc) rest

/-- Parse one CSV field: left-trim, then a quoted or unquoted scan. -/
def csvField (fuel : Nat) (l : List Char) :
    Except UploadError (String × CsvTerm × List Char) :=
  match l.dropWhile isCsvFieldTrimChar with
  | '"' :: rest => csvQuoted fuel [] rest
  | l1 => csvUnquoted fuel [] l1

/-- Parse the fields of one CSV record up to its record delimiter. -/
def csvRecord : Nat → List Char → Except UploadError (List String × List Char)
  | 0, l => .ok ([], l)
  | fuel + 1, l =>
    match csvField fuel l with
    | .error e => .error e
    | .ok (v, .comma, rest) =>
      match csvRecord fuel rest with
      | .error e => .error e
      | .ok (vs, rest2) => .ok (v :: vs, rest2)
    | .ok (v, .newline, rest) => .ok ([v], rest)
    | .ok (v, .eof, rest) => .ok ([v], rest)

/-- Parse all CSV records; empty lines are skipped (`skip_empty_lines`) and a
trailing record delimiter produces no record. -/
def csvRecordsAux : Nat → List Char → Except UploadError (List (List String))
  | 0, _ => .ok []
  | fuel + 1, l =>
    match l with
    | [] => .ok []
    | '\r' :: '\n' :: rest => csvRecordsAux fuel rest
    | '\r' :: rest => csvRecordsAux fuel rest
    | '\n' :: rest => csvRecordsAux fuel rest
    | _ =>
      match csvRecord fuel l with
      | .error e => .error e
      | .ok (vs, rest) =>
        match csvRecordsAux fuel rest with
        | .error e => .error e
        | .ok out => .ok (vs :: out)

/-- Model of `csv-parse/sync` with the options of the source (`columns:
false`, `skip_empty_lines`, `trim`, `bom`, `relax_column_count`): strip a
byte-order mark, then parse records.  Any of `\r\n`, `\n` or `\r` delimits
records (csv-parse auto-detects the first delimiter it sees and reuses it,
which coincides with this model for inputs that use one delimiter style).
`relax_column_count` only suppresses the record-length check, which this
parser does not perform. -/
def parseCsvModel (text : String) : Except UploadError (List (List String)) :=
  let chars :=
    match text.data with
    | c :: rest => if c.toNat = 0xfeff then rest else text.data
    | [] => []
  csvRecordsAux (chars.length + 1) chars

/-- JavaScript property assignment `o[k] = v` on the association-list model:
overwrite in place when the key exists, append otherwise. -/
def objAssign (fields : List (String × Jv)) (key : String) (v : Jv) : List (String × Jv) :=
  if fields.any fun p => p.1 == key then
    fields.map fun p => if p.1 == key then (key, v) else p
  else fields ++ [(key, v)]

/-- Source row-payload construction: each header is assigned the value at its
column index, a missing trailing value becoming null
(`values[headerIndex] ?? null`); extra values have no header and are
dropped. -/
def buildRowPayload (headers : List String) (values : List String) : List (String × Jv) :=
  headers.enum.foldl
    (fun acc p =>
      objAssign acc p.2
        (match values.get? p.1 with
         | some v => .str v
         | none => .null))
    []

/-- Source `extractCsv`: parse the decoded text, take the first row as the
header (empty header cells become positional `column_<i>` placeholders), and
turn every later row into a record with its zero-based data-row index. -/
def extractCsv (fileText : String) : Except UploadError ExtractedResult :=
  match parseCsvModel fileText with
  | .error e => .error e
  | .ok rows =>
    match rows with
    | [] => .ok { rawMimeType := "text/csv", records := [] }
    | headerRow :: dataRows =>
      let headers := headerRow.enum.map fun p =>
        if p.2 ≠ "" then p.2 else "column_" ++ natToString (p.1 + 1)
      let records := dataRows.enum.map fun p =>
        ({ rawJson := buildRowPayload headers p.2, rowIndex := p.1 } : ExtractedRecord)
      .ok { rawMimeType := "text/csv", records := records }

/-- Source `normalizeText`: NUL bytes become spaces, whitespace runs
collapse, and the ends are trimmed. -/
def normalizeText (content : String) : String :=
  jsTrim (collapseWs (String.mk (content.data.map fun c => if c.toNat = 0 then ' ' else c)))

/-- Source `extractPdfStub`: the normalized decoded text truncated to 4000
characters, or a placeholder when empty, as a single one-field record. -/
def extractPdfStub (fileText : String) : ExtractedResult :=
  let text := String.mk ((normalizeText fileText).data.take 4000)
  let extractedText := if text = "" then "[pdf-content-not-extracted]" else text
  { rawMimeType := "application/pdf"
    records := [{ rawJson := [("text", .str extractedText)], rowIndex := 0 }] }

/-- Node `path.extname` on posix paths: the final dot segment of the
basename; a dot-initial basename or a dotless basename has no extension. -/
def extnameOf (filename : String) : String :=
  let base := (filename.data.reverse.takeWhile fun c => c ≠ '/').reverse
  match base.reverse.span fun c => c ≠ '.' with
  | (revSuffix, '.' :: before) =>
    if before = [] then "" else String.mk ('.' :: revSuffix.reverse)
  | _ => ""

/-- The two supported upload kinds. -/
inductive UploadKind where
  | csv
  | pdf
deriving DecidableEq

/-- Source `detectUploadKind`: the lower-cased MIME type decides first, then
the lower-cased filename extension. -/
def detectUploadKind (mimeType : String) (originalFilename : String) : Option UploadKind :=
  let normalizedMimeType := asciiToLower mimeType
  let extension := asciiToLower (extnameOf originalFilename)
  if normalizedMimeType = "text/csv" || extension = ".csv" then some .csv
  else if normalizedMimeType = "application/pdf" || extension = ".pdf" then some .pdf
  else none

/-- Source `isSupportedUploadFile`. -/
def isSupportedUploadFile (mimeType originalFilename : String) : Bool :=
  (detectUploadKind mimeType originalFilename).isSome

/-- Source `extractUpload`.  The byte buffer is modelled by its UTF-8
decoded text (`Buffer.prototype.toString("utf8")` never throws); the
`Except` error is the thrown exception: the explicit unsupported-format
error, or a quoting error thrown by csv-parse. -/
def extractUpload (fileText : String) (mimeType : String) (originalFilename : String) :
    Except UploadError ExtractedResult :=
  match detectUploadKind mimeType originalFilename with
  | some .csv => extractCsv fileText
  | some .pdf => .ok (extractPdfStub fileText)
  | none => .error .unsupportedFormat

theorem isJsWs_of_digit {c : Char} (h : isAsciiDigit c = true) : isJsWs c = false := by
  simp only [isAsciiDigit, Bool.and_eq_true, decide_eq_true_eq] at h
  have h1 : 48 ≤ c.toNat := h.1
  have h2 : c.toNat ≤ 57 := h.2
  simp only [isJsWs]
  simp only [Bool.or_eq_false_iff, decide_eq_false_iff_not, Bool.and_eq_false_iff]
  omega

theorem dropWhile_all_neg {p : Char → Bool} {l : List Char}
    (h : ∀ c ∈ l, p c = false) : l.dropWhile p = l := by
  cases l with
  | nil => rfl
  | cons c rest =>
    rw [List.dropWhile_cons_of_neg]
    simp [h c (List.mem_cons_self c rest)]

theorem jsTrimL_all_neg {l : List Char} (h : ∀ c ∈ l, isJsWs c = false) :
    jsTrimL l = l := by
  unfold jsTrimL
  rw [dropWhile_all_neg h, dropWhile_all_neg, List.reverse_reverse]
  intro c hc
  exact h c (List.mem_reverse.mp hc)

theorem takeWhile_all_pos {p : Char → Bool} {l : List Char}
    (h : ∀ c ∈ l, p c = true) : l.takeWhile p = l := by
  induction l with
  | nil => rfl
  | cons c rest ih =>
    rw [List.takeWhile_cons_of_pos (h c (List.mem_cons_self c rest))]
    rw [ih fun x hx => h x (List.mem_cons_of_mem c hx)]

theorem dropWhile_all_pos {p : Char → Bool} {l : List Char}
    (h : ∀ c ∈ l, p c = true) : l.dropWhile p = [] := by
  induction l with
  | nil => rfl
  | cons c rest ih =>
    rw [List.dropWhile_cons_of_pos (h c (List.mem_cons_self c rest))]
    exact ih fun x hx => h x (List.mem_cons_of_mem c hx)

theorem takeWhile_append_stop {p : Char → Bool} {l1 : List Char} {x : Char} {l2 : List Char}
    (h1 : ∀ c ∈ l1, p c = true) (hx : p x = false) :
    (l1 ++ x :: l2).takeWhile p = l1 := by
  induction l1 with
  | nil => simp [List.takeWhile_cons, hx]
  | cons c rest ih =>
    rw [List.cons_append, List.takeWhile_cons_of_pos (h1 c (List.mem_cons_self c rest))]
    rw [ih fun a ha => h1 a (List.mem_cons_of_mem c ha)]

theorem dropWhile_append_stop {p : Char → Bool} {l1 : List Char} {x : Char} {l2 : List Char}
    (h1 : ∀ c ∈ l1, p c = true) (hx : p x = false) :
    (l1 ++ x :: l2).dropWhile p = x :: l2 := by
  induction l1 with
  | nil => simp [List.dropWhile_cons, hx]
  | cons c rest ih =>
    rw [List.cons_append, List.dropWhile_cons_of_pos (h1 c (List.mem_cons_self c rest))]
    exact ih fun a ha => h1 a (List.mem_cons_of_mem c ha)

theorem natDigitsAux_head_ne_zero (fuel n : Nat) (h : n < fuel) (hn : 0 < n) :
    ∀ c, (natDigitsAux fuel n).head? = some c → c ≠ '0' := by
  induction fuel generalizing n with
  | zero => omega
  | succ f ih =>
    intro c hc
    simp only [natDigitsAux] at hc
    split at hc
    · rename_i hlt
      simp only [List.head?_cons, Option.some.injEq] at hc
      subst hc
      interval_cases n <;> decide
    · rename_i hge
      have hne := natDigitsAux_ne_nil f (n / 10) (by omega)
      rw [List.head?_append_of_ne_nil] at hc
      · exact ih (n / 10) (by omega) (by omega) c hc
      · exact hne

theorem natDigits_head_ne_zero {n : Nat} (hn : 0 < n) :
    ∀ c, (natDigits n).head? = some c → c ≠ '0' :=
  natDigitsAux_head_ne_zero (n + 1) n (Nat.lt_succ_self n) hn

theorem natDigits_zero : natDigits 0 = ['0'] := rfl

theorem stripLeadingZeros_natDigits (n : Nat) :
    stripLeadingZerosL (natDigits n) = natDigits n := by
  rcases hn : natDigits n with _ | ⟨d, ds⟩
  · exact absurd hn (natDigitsAux_ne_nil (n + 1) n (Nat.lt_succ_self n))
  · rcases Nat.eq_zero_or_pos n with h0 | hpos
    · subst h0
      rw [natDigits_zero] at hn
      cases hn
      rfl
    · have hd : d ≠ '0' := by
        apply natDigits_head_ne_zero hpos
        rw [hn]
        rfl
      simp only [stripLeadingZerosL]
      rw [if_neg]
      simp only [Bool.and_eq_true, decide_eq_true_eq]
      rintro ⟨h, -⟩
      exact hd h

theorem digitsToNat_cons (c : Char) (l : List Char) :
    digitsToNat (c :: l) = l.foldl (fun a x => a * 10 + charToDigit x) (charToDigit c) := by
  simp [digitsToNat]

theorem pad6L_length (n : Nat) : (pad6L n).length = 6 := rfl

theorem pad6L_all_digits (n : Nat) : ∀ c ∈ pad6L n, isAsciiDigit c = true := by
  intro c hc
  simp only [pad6L, List.mem_cons, List.not_mem_nil, or_false] at hc
  rcases hc with h | h | h | h | h | h <;> (subst h; exact digitChar_isDigit _)

theorem digitsToNat_pad6L {n : Nat} (h : n < 1000000) : digitsToNat (pad6L n) = n := by
  have e1 : n / 100000 % 10 < 10 := Nat.mod_lt _ (by omega)
  have e2 : n / 10000 % 10 < 10 := Nat.mod_lt _ (by omega)
  have e3 : n / 1000 % 10 < 10 := Nat.mod_lt _ (by omega)
  have e4 : n / 100 % 10 < 10 := Nat.mod_lt _ (by omega)
  have e5 : n / 10 % 10 < 10 := Nat.mod_lt _ (by omega)
  have e6 : n % 10 < 10 := Nat.mod_lt _ (by omega)
  simp only [pad6L, digitsToNat, List.foldl_cons, List.foldl_nil,
    digitChar_lt_ten_eq _ e1, digitChar_lt_ten_eq _ e2, digitChar_lt_ten_eq _ e3,
    digitChar_lt_ten_eq _ e4, digitChar_lt_ten_eq _ e5, digitChar_lt_ten_eq _ e6]
  omega

theorem digit_ne_of_not_digit {c d : Char} (h : isAsciiDigit c = true)
    (hd : isAsciiDigit d = false) : c ≠ d := by
  intro he
  subst he
  rw [h] at hd
  cases hd

theorem renderScaled_data (n : Int) :
    (renderScaled n).data =
      (if n < 0 then ['-'] else []) ++
        (natDigits (n.natAbs / 1000000) ++ '.' :: pad6L (n.natAbs % 1000000)) := rfl

theorem natDigits_ne_nil (w : Nat) : natDigits w ≠ [] :=
  natDigitsAux_ne_nil (w + 1) w (Nat.lt_succ_self w)

theorem decimalBodyMatch_digits_dot (w f : Nat) :
    decimalBodyMatch (natDigits w ++ '.' :: pad6L f) = some (natDigits w, pad6L f) := by
  rw [decimalBodyMatch, List.span_eq_take_drop,
    takeWhile_append_stop (natDigits_all_digits w) (by decide),
    dropWhile_append_stop (natDigits_all_digits w) (by decide)]
  simp only
  rw [List.span_eq_take_drop, takeWhile_all_pos (pad6L_all_digits f),
    dropWhile_all_pos (pad6L_all_digits f)]
  simp

theorem normalizeDecimalTail_eval (neg : Bool) (w f : Nat) (hf : f < 1000000) :
    normalizeDecimalTail neg (natDigits w ++ '.' :: pad6L f) =
      some (renderScaled
        (if neg && decide (((w : Int) * 1000000 + (f : Int)) ≠ 0) then
          -((w : Int) * 1000000 + (f : Int))
        else (w : Int) * 1000000 + (f : Int))) := by
  have hlen : ((natDigits w).length = 0) = False := by
    simp [List.length_eq_zero, natDigits_ne_nil w]
  simp only [normalizeDecimalTail, decimalBodyMatch_digits_dot, pad6L_length, hlen]
  rw [if_neg (by simp [hlen])]
  rw [stripLeadingZeros_natDigits, digitsToNat_natDigits]
  have htake : List.take 6 (pad6L f) ++ List.replicate (6 - 6) '0' = pad6L f := by
    simp [pad6L]
  rw [htake, digitsToNat_pad6L hf]
  norm_num

theorem body_chars (w f : Nat) :
    ∀ c ∈ natDigits w ++ '.' :: pad6L f, c = '.' ∨ isAsciiDigit c = true := by
  intro c hc
  rw [List.mem_append, List.mem_cons] at hc
  rcases hc with h | h | h
  · exact Or.inr (natDigits_all_digits w c h)
  · exact Or.inl h
  · exact Or.inr (pad6L_all_digits f c h)

theorem ndec_reduce_neg_head {body : List Char} {v : String}
    (hkeep1c : ∀ c ∈ '-' :: body,
      (!(decide (c = '$') || decide (c = '€') || decide (c = '£') || decide (c = '₹') ||
        decide (c = ','))) = true)
    (hkeep2c : ∀ c ∈ '-' :: body, (!isJsWs c) = true)
    (htrim : jsTrimL (nfkc v).data = '-' :: body) :
    normalizeDecimalString v = normalizeDecimalTail true body := by
  simp only [normalizeDecimalString, htrim, List.head?_cons]
  simp only [show (decide (some '-' = some '(')) = false from rfl, Bool.false_and,
    Bool.false_eq_true, if_false]
  simp only [List.filter_eq_self.mpr hkeep1c, List.filter_eq_self.mpr hkeep2c]
  rw [if_neg (List.cons_ne_nil _ _), if_neg (List.cons_ne_nil _ _)]
  rw [normalizeDecimalSigned]
  rw [if_neg (by simp), if_pos (by simp)]
  simp

theorem ndec_reduce_plain_head {d : Char} {rest : List Char} {v : String}
    (hd : (d = '(') = False) (hplus : (d = '+') = False) (hminus : (d = '-') = False)
    (hkeep1c : ∀ c ∈ d :: rest,
      (!(decide (c = '$') || decide (c = '€') || decide (c = '£') || decide (c = '₹') ||
        decide (c = ','))) = true)
    (hkeep2c : ∀ c ∈ d :: rest, (!isJsWs c) = true)
    (htrim : jsTrimL (nfkc v).data = d :: rest) :
    normalizeDecimalString v = normalizeDecimalTail false (d :: rest) := by
  simp only [normalizeDecimalString, htrim, List.head?_cons]
  simp only [show (decide (some d = some '(')) = false by simp [hd], Bool.false_and,
    Bool.false_eq_true, if_false]
  simp only [List.filter_eq_self.mpr hkeep1c, List.filter_eq_self.mpr hkeep2c]
  rw [if_neg (List.cons_ne_nil _ _), if_neg (List.cons_ne_nil _ _)]
  rw [normalizeDecimalSigned]
  rw [if_neg (by simp [hplus]), if_neg (by simp [hminus])]

theorem normalizeDecimalString_render_roundtrip (n : Int) :
    normalizeDecimalString (renderScaled n) = some (renderScaled n) := by
  have hf : n.natAbs % 1000000 < 1000000 := Nat.mod_lt _ (by norm_num)
  set w := n.natAbs / 1000000 with hw
  set f := n.natAbs % 1000000 with hfdef
  have hwf : w * 1000000 + f = n.natAbs := by omega
  set body := natDigits w ++ '.' :: pad6L f with hbodydef
  have hbody : ∀ c ∈ body, c = '.' ∨ isAsciiDigit c = true := body_chars w f
  have hbody_not_ws : ∀ c ∈ body, isJsWs c = false := by
    intro c hc
    rcases hbody c hc with h | h
    · subst h; decide
    · exact isJsWs_of_digit h
  obtain ⟨d, ds, hds⟩ : ∃ d ds, natDigits w = d :: ds := by
    rcases hnd : natDigits w with _ | ⟨d, ds⟩
    · exact absurd hnd (natDigits_ne_nil w)
    · exact ⟨d, ds, rfl⟩
  have hddig : isAsciiDigit d = true := by
    apply natDigits_all_digits w
    rw [hds]
    exact List.mem_cons_self d ds
  have hbodyc : body = d :: (ds ++ '.' :: pad6L f) := by
    rw [hbodydef, hds]
    rfl
  have hval : ((w : Int) * 1000000 + (f : Int)) = (n.natAbs : Int) := by
    exact_mod_cast hwf
  have hkeep1 : ∀ c ∈ body,
      (!(decide (c = '$') || decide (c = '€') || decide (c = '£') || decide (c = '₹') ||
        decide (c = ','))) = true := by
    intro c hc
    rcases hbody c hc with h | h
    · subst h; decide
    · simp only [Bool.not_eq_true', Bool.or_eq_false_iff, decide_eq_false_iff_not]
      exact ⟨⟨⟨⟨digit_ne_of_not_digit h (by decide), digit_ne_of_not_digit h (by decide)⟩,
        digit_ne_of_not_digit h (by decide)⟩, digit_ne_of_not_digit h (by decide)⟩,
        digit_ne_of_not_digit h (by decide)⟩
  have hkeep2 : ∀ c ∈ body, (!isJsWs c) = true := by
    intro c hc
    rw [hbody_not_ws c hc]
    rfl
  rcases Int.lt_or_le n 0 with hn | hn
  · have hchars : ∀ c ∈ '-' :: body, isJsWs c = false := by
      intro c hc
      rcases List.mem_cons.mp hc with h | h
      · subst h; decide
      · exact hbody_not_ws c h
    have htrim : jsTrimL (nfkc (renderScaled n)).data = '-' :: body := by
      show jsTrimL (renderScaled n).data = _
      rw [renderScaled_data, if_pos hn, List.singleton_append]
      exact jsTrimL_all_neg hchars
    have hkeep1c : ∀ c ∈ '-' :: body,
        (!(decide (c = '$') || decide (c = '€') || decide (c = '£') || decide (c = '₹') ||
          decide (c = ','))) = true := by
      intro c hc
      rcases List.mem_cons.mp hc with h | h
      · subst h; decide
      · exact hkeep1 c h
    have hkeep2c : ∀ c ∈ '-' :: body, (!isJsWs c) = true := by
      intro c hc
      rcases List.mem_cons.mp hc with h | h
      · subst h; decide
      · exact hkeep2 c h
    rw [ndec_reduce_neg_head hkeep1c hkeep2c htrim]
    rw [hbodydef, normalizeDecimalTail_eval true w f hf]
    have habs : ((n.natAbs : Nat) : Int) = -n := Int.ofNat_natAbs_of_nonpos (le_of_lt hn)
    congr 1
    rw [if_pos]
    · rw [hval, habs, neg_neg]
    · simp only [Bool.true_and, decide_eq_true_eq]
      rw [hval, habs]
      omega
  · have htrim : jsTrimL (nfkc (renderScaled n)).data = body := by
      show jsTrimL (renderScaled n).data = _
      rw [renderScaled_data, if_neg (by omega), List.nil_append]
      exact jsTrimL_all_neg hbody_not_ws
    rw [hbodyc] at htrim hkeep1 hkeep2
    rw [@ndec_reduce_plain_head d (ds ++ '.' :: pad6L f) (renderScaled n)
      (eq_false (digit_ne_of_not_digit hddig (by decide : isAsciiDigit '(' = false)))
      (eq_false (digit_ne_of_not_digit hddig (by decide : isAsciiDigit '+' = false)))
      (eq_false (digit_ne_of_not_digit hddig (by decide : isAsciiDigit '-' = false)))
      hkeep1 hkeep2 htrim]
    rw [← hbodyc, hbodydef, normalizeDecimalTail_eval false w f hf]
    have habs : ((n.natAbs : Nat) : Int) = n := Int.natAbs_of_nonneg hn
    congr 1
    rw [if_neg (by simp)]
    rw [hval, habs]

theorem normalizeDecimalTail_some_form {b : Bool} {t : List Char} {r : String}
    (h : normalizeDecimalTail b t = some r) : ∃ m : Int, r = renderScaled m := by
  rw [normalizeDecimalTail] at h
  split at h
  · cases h
  · split at h
    · cases h
    · exact ⟨_, ((Option.some.injEq _ _).mp h).symm⟩

theorem normalizeDecimalSigned_some_form {b : Bool} {t : List Char} {r : String}
    (h : normalizeDecimalSigned b t = some r) : ∃ m : Int, r = renderScaled m := by
  rw [normalizeDecimalSigned] at h
  split at h
  · exact normalizeDecimalTail_some_form h
  · split at h
    · exact normalizeDecimalTail_some_form h
    · exact normalizeDecimalTail_some_form h

theorem normalizeDecimalString_some_form {v r : String}
    (h : normalizeDecimalString v = some r) : ∃ m : Int, r = renderScaled m := by
  simp only [normalizeDecimalString] at h
  split at h
  · cases h
  · split at h
    · split at h
      · cases h
      · exact normalizeDecimalSigned_some_form h
    · split at h
      · cases h
      · exact normalizeDecimalSigned_some_form h

/-- Shape required of every decimal normalizer output: an optional minus
sign, then a non-empty integer digit run with no leading zero unless it is a
bare single digit, a dot, and exactly six fractional digits. -/
def decimalOutputShape (r : String) : Bool :=
  match (if r.data.head? = some '-' then r.data.tail else r.data).span isAsciiDigit with
  | (intPart, '.' :: frac) =>
    decide (intPart ≠ []) &&
      (decide (intPart.length = 1) || decide (intPart.headD '0' ≠ '0')) &&
      decide (frac.length = 6) && frac.all isAsciiDigit
  | _ => false

theorem decimalOutputShape_renderScaled (m : Int) :
    decimalOutputShape (renderScaled m) = true := by
  set w := m.natAbs / 1000000 with hw
  set f := m.natAbs % 1000000 with hfdef
  obtain ⟨d, ds, hds⟩ : ∃ d ds, natDigits w = d :: ds := by
    rcases hnd : natDigits w with _ | ⟨d, ds⟩
    · exact absurd hnd (natDigits_ne_nil w)
    · exact ⟨d, ds, rfl⟩
  have hddig : isAsciiDigit d = true := by
    apply natDigits_all_digits w
    rw [hds]
    exact List.mem_cons_self d ds
  have hbodyspan :
      (natDigits w ++ '.' :: pad6L f).span isAsciiDigit = (natDigits w, '.' :: pad6L f) := by
    rw [List.span_eq_take_drop,
      takeWhile_append_stop (natDigits_all_digits w) (by decide),
      dropWhile_append_stop (natDigits_all_digits w) (by decide)]
  have hhead : (natDigits w).length = 1 ∨ (natDigits w).headD '0' ≠ '0' := by
    rcases Nat.eq_zero_or_pos w with h0 | hpos
    · left
      rw [h0, natDigits_zero]
      rfl
    · right
      rw [hds]
      exact natDigits_head_ne_zero hpos d (by rw [hds]; rfl)
  have hshape :
      (decide (natDigits w ≠ []) &&
        (decide ((natDigits w).length = 1) || decide ((natDigits w).headD '0' ≠ '0')) &&
        decide ((pad6L f).length = 6) && (pad6L f).all isAsciiDigit) = true := by
    simp only [Bool.and_eq_true, Bool.or_eq_true, decide_eq_true_eq, List.all_eq_true]
    exact ⟨⟨⟨natDigits_ne_nil w, hhead⟩, pad6L_length f⟩, pad6L_all_digits f⟩
  rcases Int.lt_or_le m 0 with hm | hm
  · have hdata : (renderScaled m).data = '-' :: (natDigits w ++ '.' :: pad6L f) := by
      rw [renderScaled_data, if_pos hm, List.singleton_append]
    have hbody_eq :
        (if (renderScaled m).data.head? = some '-' then (renderScaled m).data.tail
         else (renderScaled m).data) = natDigits w ++ '.' :: pad6L f := by
      rw [hdata]
      simp
    rw [decimalOutputShape, hbody_eq, hbodyspan]
    exact hshape
  · have hdata : (renderScaled m).data = natDigits w ++ '.' :: pad6L f := by
      rw [renderScaled_data, if_neg (by omega), List.nil_append]
    have hbody_eq :
        (if (renderScaled m).data.head? = some '-' then (renderScaled m).data.tail
         else (renderScaled m).data) = natDigits w ++ '.' :: pad6L f := by
      rw [hdata, if_neg]
      rw [hds]
      simp only [List.cons_append, List.head?_cons, Option.some.injEq]
      exact digit_ne_of_not_digit hddig (by decide)
    rw [decimalOutputShape, hbody_eq, hbodyspan]
    exact hshape

theorem mem_takeWhile_mem {p : Char → Bool} {l : List Char} {c : Char}
    (h : c ∈ l.takeWhile p) : c ∈ l :=
  (List.takeWhile_sublist p).subset h

theorem mem_dropWhile_mem {p : Char → Bool} {l : List Char} {c : Char}
    (h : c ∈ l.dropWhile p) : c ∈ l :=
  (List.dropWhile_sublist p).subset h

theorem mem_jsTrimL_mem {l : List Char} {c : Char} (h : c ∈ jsTrimL l) : c ∈ l := by
  unfold jsTrimL at h
  rw [List.mem_reverse] at h
  have h2 := mem_dropWhile_mem h
  rw [List.mem_reverse] at h2
  exact mem_dropWhile_mem h2

theorem decimalBodyMatch_digit_exists {t : List Char} {i f : List Char}
    (h : decimalBodyMatch t = some (i, f)) (hne : ¬(i = [] ∧ f = [])) :
    ∃ c ∈ t, isAsciiDigit c = true := by
  have htake : ∀ c0 (l0 : List Char), t.takeWhile isAsciiDigit = c0 :: l0 →
      ∃ c ∈ t, isAsciiDigit c = true := by
    intro c0 l0 heq
    have hc0 : c0 ∈ t.takeWhile isAsciiDigit := by
      rw [heq]
      exact List.mem_cons_self c0 l0
    exact ⟨c0, mem_takeWhile_mem hc0, List.mem_takeWhile_imp hc0⟩
  rw [decimalBodyMatch, List.span_eq_take_drop] at h
  split at h
  rename_i pr yr r5 heq
  have hyr : t.takeWhile isAsciiDigit = yr := congrArg Prod.fst heq
  have hr5 : t.dropWhile isAsciiDigit = r5 := congrArg Prod.snd heq
  split at h
  · simp only [Option.some.injEq, Prod.mk.injEq] at h
    rcases hi2 : i with _ | ⟨c0, i0⟩
    · exact absurd ⟨hi2, h.2.symm⟩ hne
    · exact htake c0 i0 (by rw [hyr, h.1, hi2])
  · rename_i r2
    split at h
    rename_i sp fr rr heqs
    rw [List.span_eq_take_drop] at heqs
    have hfr : r2.takeWhile isAsciiDigit = fr := congrArg Prod.fst heqs
    split at h
    · simp only [Option.some.injEq, Prod.mk.injEq] at h
      rcases hi2 : i with _ | ⟨c0, i0⟩
      · rcases hf2 : f with _ | ⟨c1, f1⟩
        · exact absurd ⟨hi2, hf2⟩ hne
        · have hc1 : c1 ∈ r2.takeWhile isAsciiDigit := by
            rw [hfr, h.2, hf2]
            exact List.mem_cons_self c1 f1
          refine ⟨c1, ?_, List.mem_takeWhile_imp hc1⟩
          have hmem : c1 ∈ t.dropWhile isAsciiDigit := by
            rw [hr5]
            exact List.mem_cons_of_mem _ (mem_takeWhile_mem hc1)
          exact mem_dropWhile_mem hmem
      · exact htake c0 i0 (by rw [hyr, h.1, hi2])
    · cases h
  · cases h

theorem normalizeDecimalTail_digit_exists {b : Bool} {t : List Char} {r : String}
    (h : normalizeDecimalTail b t = some r) : ∃ c ∈ t, isAsciiDigit c = true := by
  rw [normalizeDecimalTail] at h
  split at h
  · cases h
  · rename_i i f heq
    split at h
    · cases h
    · rename_i hne
      apply decimalBodyMatch_digit_exists heq
      rintro ⟨hi, hf⟩
      apply hne
      subst hi
      subst hf
      rfl

theorem normalizeDecimalSigned_digit_exists {b : Bool} {t : List Char} {r : String}
    (h : normalizeDecimalSigned b t = some r) : ∃ c ∈ t, isAsciiDigit c = true := by
  rw [normalizeDecimalSigned] at h
  split at h
  · obtain ⟨c, hc, hd⟩ := normalizeDecimalTail_digit_exists h
    exact ⟨c, List.drop_subset 1 t hc, hd⟩
  · split at h
    · obtain ⟨c, hc, hd⟩ := normalizeDecimalTail_digit_exists h
      exact ⟨c, List.drop_subset 1 t hc, hd⟩
    · exact normalizeDecimalTail_digit_exists h

theorem normalizeDecimalString_digit_exists {v : String} {r : String}
    (h : normalizeDecimalString v = some r) : ∃ c ∈ v.data, isAsciiDigit c = true := by
  simp only [normalizeDecimalString] at h
  split at h
  · cases h
  · split at h
    · split at h
      · cases h
      · obtain ⟨c, hc, hd⟩ := normalizeDecimalSigned_digit_exists h
        have hc2 := List.mem_of_mem_filter hc
        have hc3 := List.mem_of_mem_filter hc2
        simp only at hc3
        have hc4 := List.dropLast_subset _ hc3
        have hc5 := List.drop_subset 1 _ hc4
        exact ⟨c, mem_jsTrimL_mem hc5, hd⟩
    · split at h
      · cases h
      · obtain ⟨c, hc, hd⟩ := normalizeDecimalSigned_digit_exists h
        have hc2 := List.mem_of_mem_filter hc
        have hc3 := List.mem_of_mem_filter hc2
        simp only at hc3
        exact ⟨c, mem_jsTrimL_mem hc3, hd⟩

theorem ndec_none_of_no_digit {v : String} (h : ∀ c ∈ v.data, isAsciiDigit c = false) :
    normalizeDecimalString v = none := by
  rcases hr : normalizeDecimalString v with _ | r
  · rfl
  · obtain ⟨c, hc, hd⟩ := normalizeDecimalString_digit_exists hr
    rw [h c hc] at hd
    cases hd

theorem renderScaled_ne_neg_zero (m : Int) : renderScaled m ≠ "-0.000000" := by
  intro h
  have hdata := congrArg String.data h
  have hlit : ("-0.000000" : String).data = ['-', '0', '.', '0', '0', '0', '0', '0', '0'] := rfl
  rw [renderScaled_data, hlit] at hdata
  rcases Int.lt_or_le m 0 with hm | hm
  · rw [if_pos hm, List.singleton_append] at hdata
    have htail : natDigits (m.natAbs / 1000000) ++ '.' :: pad6L (m.natAbs % 1000000) =
        ['0'] ++ '.' :: ['0', '0', '0', '0', '0', '0'] := by
      injection hdata
    have hsplit := List.append_inj' htail
      (by rw [List.length_cons, pad6L_length]; rfl)
    have hw0 : m.natAbs / 1000000 = 0 := by
      have hv := digitsToNat_natDigits (m.natAbs / 1000000)
      rw [hsplit.1] at hv
      exact hv.symm
    have hf0 : m.natAbs % 1000000 = 0 := by
      have hpad : pad6L (m.natAbs % 1000000) = ['0', '0', '0', '0', '0', '0'] := by
        injection hsplit.2
      have hv := digitsToNat_pad6L (Nat.mod_lt m.natAbs (by norm_num))
      rw [hpad] at hv
      exact hv.symm
    have habs : m.natAbs = 0 := by omega
    rw [Int.natAbs_eq_zero] at habs
    omega
  · rw [if_neg (by omega), List.nil_append] at hdata
    obtain ⟨d, ds, hds⟩ : ∃ d ds, natDigits (m.natAbs / 1000000) = d :: ds := by
      rcases hnd : natDigits (m.natAbs / 1000000) with _ | ⟨d, ds⟩
      · exact absurd hnd (natDigits_ne_nil _)
      · exact ⟨d, ds, rfl⟩
    have hddig : isAsciiDigit d = true := by
      apply natDigits_all_digits
      rw [hds]
      exact List.mem_cons_self d ds
    rw [hds, List.cons_append] at hdata
    have hd : d = '-' := by injection hdata
    exact digit_ne_of_not_digit hddig (by decide) hd

/-- C4 counterexample: the decimal normalizer keeps a fixed scale of six
fractional digits, so `"$1,234.505"` maps to `"1234.505000"` (not
`"1234.51"`) and `"(99.99)"` maps to `"-99.990000"` (not `"-99.99"`). -/
theorem c4_decimal_examples_counterexample :
    normalizeDecimalString "$1,234.505" = some "1234.505000" ∧
    normalizeDecimalString "$1,234.505" ≠ some "1234.51" ∧
    normalizeDecimalString "(99.99)" = some "-99.990000" ∧
    normalizeDecimalString "(99.99)" ≠ some "-99.99" :=
  ⟨by decide, by decide, by decide, by decide⟩

/-- C4 (amended): decimal normalization maps `"$1,234.505"` to
`"1234.505000"`, `"10.1234565"` to `"10.123457"` (round-half-up on the first
dropped digit), and `"(99.99)"` to `"-99.990000"`. -/
theorem c4_decimal_examples :
    normalizeDecimalString "$1,234.505" = some "1234.505000" ∧
    normalizeDecimalString "10.1234565" = some "10.123457" ∧
    normalizeDecimalString "(99.99)" = some "-99.990000" :=
  ⟨by decide, by decide, by decide⟩

/-- C5: whenever the decimal normalizer succeeds its result has the required
shape (an optional minus sign, an integer part without leading zeros except a
bare 0, and exactly six fractional digits), and an input containing no ASCII
digit yields no normalized value. -/
theorem c5_decimal_shape_and_no_digit :
    (∀ v r, normalizeDecimalString v = some r → decimalOutputShape r = true) ∧
    (∀ v, (∀ c ∈ v.data, isAsciiDigit c = false) → normalizeDecimalString v = none) := by
  constructor
  · intro v r h
    obtain ⟨m, rfl⟩ := normalizeDecimalString_some_form h
    exact decimalOutputShape_renderScaled m
  · intro v h
    exact ndec_none_of_no_digit h

/-- Witness for C5 at concrete inputs. -/
theorem c5_decimal_shape_and_no_digit_witness :
    decimalOutputShape "1234.505000" = true ∧ normalizeDecimalString "no digits!" = none :=
  ⟨c5_decimal_shape_and_no_digit.1 "$1,234.505" "1234.505000" (by decide),
   c5_decimal_shape_and_no_digit.2 "no digits!" (by decide)⟩

/-- C6: an invalid calendar date under a date-role key passes through scalar
canonicalization unchanged, and the slashed-date form resolves two-digit
years with the 70 rule. -/
theorem c6_date_normalization :
    normalizeScalarString "2026-02-30" (some "date") = "2026-02-30" ∧
    normalizeDateString "2026-02-30" = none ∧
    normalizeDateString "3/5/26" = some "2026-03-05" ∧
    normalizeDateString "3/5/69" = some "2069-03-05" ∧
    normalizeDateString "3/5/70" = some "1970-03-05" ∧
    normalizeTwoDigitYear 69 = 2069 ∧
    normalizeTwoDigitYear 70 = 1970 :=
  ⟨by decide, by decide, by decide, by decide, by decide, by decide, by decide⟩

/-- C10: inputs whose magnitude rounds to zero normalize to an unsigned
`"0.000000"`, and no successful normalization ever returns `"-0.000000"`. -/
theorem c10_no_negative_zero :
    normalizeDecimalString "(0.00)" = some "0.000000" ∧
    normalizeDecimalString "-0" = some "0.000000" ∧
    normalizeDecimalString "-0.0000004" = some "0.000000" ∧
    ∀ s r, normalizeDecimalString s = some r → r ≠ "-0.000000" := by
  refine ⟨by decide, by decide, by decide, ?_⟩
  intro s r h
  obtain ⟨m, rfl⟩ := normalizeDecimalString_some_form h
  exact renderScaled_ne_neg_zero m

/-- Witness for C10 at a concrete input. -/
theorem c10_no_negative_zero_witness :
    ("0.000000" : String) ≠ "-0.000000" ∧ normalizeDecimalString "(0.00)" = some "0.000000" :=
  ⟨c10_no_negative_zero.2.2.2 "(0.00)" "0.000000" (by decide), by decide⟩

/-- The end-to-end CSV scenario bytes of the specification, decoded. -/
def endToEndCsvText : String :=
  "date,amount,currency,description\n2026-02-15,1200.50,INR,Salary Credit\n"

/-- The end-to-end pipeline run of the specification: extract as CSV,
canonicalize and hash, then derive with default currency INR. -/
def endToEndCandidates : List NormalizedTransactionCandidate :=
  match extractUpload endToEndCsvText "text/csv" "statement.csv" with
  | .ok er =>
    deriveNormalizedTransactionsFromRows (normalizeExtractedRecords er).records
      { defaultCurrency := some "INR" }
  | .error _ => []

/-- C2 counterexample: the deriver reads the description from the original
raw JSON through `normalizeFlatString`, which trims and collapses whitespace
but never lower-cases, so the end-to-end candidate's description is
`"Salary Credit"`, not the claimed `"salary credit"`. -/
theorem c2_end_to_end_counterexample :
    endToEndCandidates.map (fun c => c.description) ≠ ["salary credit"] ∧
    endToEndCandidates.map (fun c => c.description) = ["Salary Credit"] :=
  ⟨by decide, by decide⟩

/-- C2 (amended): the end-to-end scenario yields exactly one candidate with
`occurredAt = "2026-02-15"`, `amount = "1200.500000"`, `currency = "INR"` and
`description = "Salary Credit"` (the description keeps its original casing:
lower-casing happens only inside canonicalization-for-hashing, which the
deriver does not read). -/
theorem c2_end_to_end :
    endToEndCandidates.length = 1 ∧
    endToEndCandidates.map (fun c => c.occurredAt) = [some "2026-02-15"] ∧
    endToEndCandidates.map (fun c => c.amount) = ["1200.500000"] ∧
    endToEndCandidates.map (fun c => c.currency) = ["INR"] ∧
    endToEndCandidates.map (fun c => c.description) = ["Salary Credit"] ∧
    endToEndCandidates.map (fun c => c.normalizationVersion) = ["v1"] :=
  ⟨by decide, by decide, by decide, by decide, by decide, by decide⟩

theorem normalizeCurrencyCode_shape {v : Option String} {cur : String}
    (h : normalizeCurrencyCode v = some cur) :
    cur.length = 3 ∧ cur.data.all allowedCurrencyChar = true := by
  match v with
  | none => cases h
  | some s =>
    simp only [normalizeCurrencyCode] at h
    split at h
    · cases h
    · split at h
      · rename_i hlen
        obtain rfl : _ = cur := (Option.some.injEq _ _).mp h
        refine ⟨hlen, ?_⟩
        rw [List.all_eq_true]
        intro c hc
        exact List.of_mem_filter hc
      · split at h
        · obtain rfl : _ = cur := (Option.some.injEq _ _).mp h
          exact ⟨by decide, by decide⟩
        · split at h
          · obtain rfl : _ = cur := (Option.some.injEq _ _).mp h
            exact ⟨by decide, by decide⟩
          · split at h
            · obtain rfl : _ = cur := (Option.some.injEq _ _).mp h
              exact ⟨by decide, by decide⟩
            · split at h
              · obtain rfl : _ = cur := (Option.some.injEq _ _).mp h
                exact ⟨by decide, by decide⟩
              · cases h

/-- The amount a record contributes in the deriver: the first amount-role key
whose value flat-normalizes, run through the decimal normalizer. -/
def amountOfRecord (record : NormalizedRecord) : Option String :=
  (pickFirstNormalizedValue record.rawJson NORMALIZED_AMOUNT_KEYS).bind normalizeDecimalString

theorem derive_mem_structure {rows : List NormalizedRecord} {opts : DeriveOptions}
    {c : NormalizedTransactionCandidate}
    (h : c ∈ deriveNormalizedTransactionsFromRows rows opts) :
    ∃ row ∈ rows,
      amountOfRecord row = some c.amount ∧
      ((normalizeCurrencyCode (pickFirstNormalizedValue row.rawJson NORMALIZED_CURRENCY_KEYS)).or
        (normalizeCurrencyCode opts.defaultCurrency)) = some c.currency ∧
      pickFirstNormalizedValue row.rawJson NORMALIZED_DESCRIPTION_KEYS = some c.description ∧
      c.rowSha256 = row.rowSha256 := by
  simp only [deriveNormalizedTransactionsFromRows] at h
  rw [List.mem_flatMap] at h
  obtain ⟨row, hrow, hc⟩ := h
  refine ⟨row, hrow, ?_⟩
  split at hc
  · cases hc
  · rename_i amount hamount
    split at hc
    · cases hc
    · rename_i currency hcurrency
      split at hc
      · cases hc
      · rename_i description hdescription
        rw [List.mem_singleton] at hc
        subst hc
        exact ⟨hamount, hcurrency, hdescription, rfl⟩

theorem derive_singleton_empty_of_amount_none {record : NormalizedRecord}
    {opts : DeriveOptions} (h : amountOfRecord record = none) :
    deriveNormalizedTransactionsFromRows [record] opts = [] := by
  simp only [deriveNormalizedTransactionsFromRows, List.flatMap_cons, List.flatMap_nil,
    List.append_nil]
  rw [amountOfRecord] at h
  rw [h]

theorem derive_singleton_empty_of_currency_none {record : NormalizedRecord}
    {opts : DeriveOptions}
    (h1 : normalizeCurrencyCode
      (pickFirstNormalizedValue record.rawJson NORMALIZED_CURRENCY_KEYS) = none)
    (h2 : normalizeCurrencyCode opts.defaultCurrency = none) :
    deriveNormalizedTransactionsFromRows [record] opts = [] := by
  simp only [deriveNormalizedTransactionsFromRows, List.flatMap_cons, List.flatMap_nil,
    List.append_nil]
  rw [h1, h2]
  split
  · rfl
  · rfl

/-- A record whose currency value is three dollar signs. -/
def c7SymbolRow : NormalizedRecord :=
  { rawJson := [("amount", .str "5"), ("currency", .str "$$$"), ("description", .str "x")]
    rowIndex := 0
    rowSha256 := "r" }

/-- A record whose currency value is the rejected two-letter code. -/
def c7FallbackRow : NormalizedRecord :=
  { rawJson := [("amount", .str "5"), ("currency", .str "XY"), ("description", .str "x")]
    rowIndex := 0
    rowSha256 := "r" }

/-- C7 counterexample: a currency cell of `"$$$"` survives normalization
(any cleaned three-character value passes the length check), so a candidate
can carry a currency that is not a three-letter code. -/
theorem c7_currency_counterexample :
    (deriveNormalizedTransactionsFromRows [c7SymbolRow] {}).map (fun c => c.currency) =
      ["$$$"] ∧
    ("$$$".data.all fun ch => 'A' ≤ ch && ch ≤ 'Z') = false :=
  ⟨by decide, by decide⟩

/-- C7 (amended): every candidate's currency is a three-character string over
`A`-`Z` and the currency signs (the source passes any cleaned three-character
value through, not only letter codes); the concrete normalizations behave as
claimed; and a rejected-or-absent currency falls back to the default, with no
candidate when there is no default either. -/
theorem c7_currency_normalization :
    (∀ rows opts c, c ∈ deriveNormalizedTransactionsFromRows rows opts →
      c.currency.length = 3 ∧ c.currency.data.all allowedCurrencyChar = true) ∧
    (normalizeCurrencyCode (some " usd ") = some "USD" ∧
     normalizeCurrencyCode (some "₹") = some "INR" ∧
     normalizeCurrencyCode (some "$") = some "USD" ∧
     normalizeCurrencyCode (some "€") = some "EUR" ∧
     normalizeCurrencyCode (some "£") = some "GBP" ∧
     normalizeCurrencyCode (some "XY") = none) ∧
    (∀ record opts,
      normalizeCurrencyCode
        (pickFirstNormalizedValue record.rawJson NORMALIZED_CURRENCY_KEYS) = none →
      normalizeCurrencyCode opts.defaultCurrency = none →
      deriveNormalizedTransactionsFromRows [record] opts = []) ∧
    (deriveNormalizedTransactionsFromRows [c7FallbackRow]
      { defaultCurrency := some "INR" }).map (fun c => c.currency) = ["INR"] := by
  refine ⟨?_, ⟨by decide, by decide, by decide, by decide, by decide, by decide⟩,
    ?_, by decide⟩
  · intro rows opts c hc
    obtain ⟨row, _, _, hcur, _, _⟩ := derive_mem_structure hc
    rcases hx : normalizeCurrencyCode
        (pickFirstNormalizedValue row.rawJson NORMALIZED_CURRENCY_KEYS) with _ | a
    · rw [hx, Option.none_or] at hcur
      exact normalizeCurrencyCode_shape hcur
    · rw [hx] at hcur
      exact normalizeCurrencyCode_shape (hx.trans hcur)
  · intro record opts h1 h2
    exact derive_singleton_empty_of_currency_none h1 h2

/-- Witness for C7 at concrete inputs. -/
theorem c7_currency_normalization_witness :
    (({ rowSha256 := "r", occurredAt := none, amount := "5.000000", currency := "$$$"
        description := "x", merchant := none, accountId := none, category := none
        normalizationVersion := "v1" } :
      NormalizedTransactionCandidate).currency.length = 3 ∧
      ({ rowSha256 := "r", occurredAt := none, amount := "5.000000", currency := "$$$"
         description := "x", merchant := none, accountId := none, category := none
         normalizationVersion := "v1" } :
       NormalizedTransactionCandidate).currency.data.all allowedCurrencyChar = true) ∧
    deriveNormalizedTransactionsFromRows [c7FallbackRow] {} = [] :=
  ⟨c7_currency_normalization.1 [c7SymbolRow] {} _ (by decide),
   c7_currency_normalization.2.2.1 c7FallbackRow {} (by decide) (by decide)⟩

/-- Stated from the claim's words, for the refinement check of C9: the first
candidate key whose value is present and non-null, regardless of whether it
flat-normalizes to a usable string. -/
def specFirstPresentNonNullValue (rawJson : List (String × Jv)) (candidateKeys : List String) :
    Option Jv :=
  match candidateKeys with
  | [] => none
  | k :: rest =>
    match lookupNormalizedField rawJson k with
    | some .null => specFirstPresentNonNullValue rawJson rest
    | some v => some v
    | none => specFirstPresentNonNullValue rawJson rest

/-- A record whose first amount-role key holds the empty string. -/
def c9Row : NormalizedRecord :=
  { rawJson := [("amount", .str ""), ("amt", .str "5"), ("description", .str "x")]
    rowIndex := 0
    rowSha256 := "r" }

/-- C9 counterexample: the first present and non-null amount value of
`c9Row` is the empty string, which the decimal normalizer rejects — yet the
deriver still emits a candidate, taking the amount from the next key, because
it skips values whose flat normalization is null (the empty string among
them) rather than values that are absent or null. -/
theorem c9_amount_counterexample :
    specFirstPresentNonNullValue c9Row.rawJson NORMALIZED_AMOUNT_KEYS = some (.str "") ∧
    normalizeDecimalString "" = none ∧
    (deriveNormalizedTransactionsFromRows [c9Row]
      { defaultCurrency := some "USD" }).map (fun c => c.amount) = ["5.000000"] :=
  ⟨rfl, by decide, by decide⟩

/-- C9 (amended): the deriver takes the amount from the first candidate key
whose value flat-normalizes to a string (present, non-null, non-empty after
trimming, and not a nested structure), runs it through the decimal
normalizer, and emits no candidate for the row when no key qualifies or the
qualifying value does not parse. -/
theorem c9_amount_selection :
    (∀ record opts, amountOfRecord record = none →
      deriveNormalizedTransactionsFromRows [record] opts = []) ∧
    (∀ record opts c, c ∈ deriveNormalizedTransactionsFromRows [record] opts →
      amountOfRecord record = some c.amount) := by
  constructor
  · intro record opts h
    exact derive_singleton_empty_of_amount_none h
  · intro record opts c hc
    obtain ⟨row, hrow, hamount, -, -, -⟩ := derive_mem_structure hc
    rw [List.mem_singleton] at hrow
    subst hrow
    exact hamount

/-- Witness for C9 at concrete inputs. -/
theorem c9_amount_selection_witness :
    deriveNormalizedTransactionsFromRows
      [{ rawJson := [("description", .str "x")], rowIndex := 0, rowSha256 := "r" }] {} = [] ∧
    amountOfRecord c9Row = some "5.000000" :=
  ⟨c9_amount_selection.1 _ {} (by decide),
   c9_amount_selection.2 c9Row { defaultCurrency := some "USD" }
     { rowSha256 := "r", occurredAt := none, amount := "5.000000", currency := "USD"
       description := "x", merchant := none, accountId := none, category := none
       normalizationVersion := "v1" } (by decide)⟩

theorem csvUnquoted_no_unsupported :
    ∀ (fuel : Nat) (acc l : List Char),
      csvUnquoted fuel acc l ≠ .error .unsupportedFormat := by
  intro fuel
  induction fuel with
  | zero =>
    intro acc l
    cases l <;> simp [csvUnquoted]
  | succ f ih =>
    intro acc l
    cases l with
    | nil => simp [csvUnquoted]
    | cons c rest =>
      simp only [csvUnquoted]
      split
      · simp
      · split
        · split <;> simp
        · split
          · simp
          · split
            · simp
            · exact ih _ _

theorem csvAfterQuote_no_unsupported (value : String) (l : List Char) :
    csvAfterQuote value l ≠ .error .unsupportedFormat := by
  rw [csvAfterQuote]
  split <;> simp

theorem csvQuoted_no_unsupported :
    ∀ (fuel : Nat) (acc l : List Char),
      csvQuoted fuel acc l ≠ .error .unsupportedFormat := by
  intro fuel
  induction fuel with
  | zero =>
    intro acc l
    cases l <;> simp [csvQuoted]
  | succ f ih =>
    intro acc l
    cases l with
    | nil => simp [csvQuoted]
    | cons c rest =>
      simp only [csvQuoted]
      split
      · split
        · exact ih _ _
        · exact csvAfterQuote_no_unsupported _ _
      · exact ih _ _

theorem csvField_no_unsupported (fuel : Nat) (l : List Char) :
    csvField fuel l ≠ .error .unsupportedFormat := by
  rw [csvField]
  split
  · exact csvQuoted_no_unsupported _ _ _
  · exact csvUnquoted_no_unsupported _ _ _

theorem csvRecord_no_unsupported :
    ∀ (fuel : Nat) (l : List Char), csvRecord fuel l ≠ .error .unsupportedFormat := by
  intro fuel
  induction fuel with
  | zero =>
    intro l
    simp [csvRecord]
  | succ f ih =>
    intro l
    simp only [csvRecord]
    split
    · rename_i e heq
      intro hcontra
      apply csvField_no_unsupported f l
      rw [heq]
      injection hcontra with h2
      rw [h2]
    · rename_i v rest heq
      split
      · rename_i e2 heq2
        intro hcontra
        apply ih rest
        rw [heq2]
        injection hcontra with h2
        rw [h2]
      · simp
    · simp
    · simp

theorem csvRecordsAux_no_unsupported :
    ∀ (fuel : Nat) (l : List Char), csvRecordsAux fuel l ≠ .error .unsupportedFormat := by
  intro fuel
  induction fuel with
  | zero =>
    intro l
    simp [csvRecordsAux]
  | succ f ih =>
    intro l
    simp only [csvRecordsAux]
    split
    · simp
    · exact ih _
    · exact ih _
    · exact ih _
    · split
      · rename_i e heq
        intro hcontra
        apply csvRecord_no_unsupported f _
        rw [heq]
        injection hcontra with h2
        rw [h2]
      · split
        · rename_i e2 heq2
          intro hcontra
          apply ih _
          rw [heq2]
          injection hcontra with h2
          rw [h2]
        · simp

theorem parseCsvModel_no_unsupported (text : String) :
    parseCsvModel text ≠ .error .unsupportedFormat := by
  rw [parseCsvModel]
  exact csvRecordsAux_no_unsupported _ _

theorem extractCsv_no_unsupported (fileText : String) :
    extractCsv fileText ≠ .error .unsupportedFormat := by
  rw [extractCsv]
  split
  · rename_i e heq
    intro hcontra
    apply parseCsvModel_no_unsupported fileText
    rw [heq]
    injection hcontra with h2
    rw [h2]
  · split <;> simp

/-- C8 counterexample: a CSV-recognized upload whose content is an unclosed
quote raises the csv-parse quote error, so recognized inputs can still throw
(the claim's `raises no exception regardless of the byte content` fails);
the error is not the unsupported-format error. -/
theorem c8_unsupported_counterexample :
    extractUpload "\"a" "text/csv" "upload.csv" = .error .csvQuoteNotClosed ∧
    UploadError.csvQuoteNotClosed ≠ UploadError.unsupportedFormat :=
  ⟨rfl, by decide⟩

/-- C8 (amended): extraction fails with the unsupported-format error exactly
when neither the MIME type nor the extension indicates CSV or PDF; a
PDF-recognized input never raises; a CSV-recognized input raises exactly when
the CSV parser rejects it (malformed quoting). -/
theorem c8_upload_kind_detection :
    (∀ content mime fname,
      extractUpload content mime fname = .error .unsupportedFormat ↔
        detectUploadKind mime fname = none) ∧
    (∀ content mime fname, detectUploadKind mime fname = some .pdf →
      (extractUpload content mime fname).isOk = true) ∧
    (∀ content mime fname, detectUploadKind mime fname = some .csv →
      ((extractUpload content mime fname).isOk = true ↔
        (parseCsvModel content).isOk = true)) := by
  refine ⟨?_, ?_, ?_⟩
  · intro content mime fname
    rw [extractUpload]
    rcases h : detectUploadKind mime fname with _ | k
    · simp
    · cases k
      · simp only [Option.some.injEq]
        constructor
        · intro hc
          exact absurd hc (extractCsv_no_unsupported content)
        · intro hc
          cases hc
      · simp only [Option.some.injEq]
        constructor
        · intro hc
          cases hc
        · intro hc
          cases hc
  · intro content mime fname h
    rw [extractUpload, h]
    rfl
  · intro content mime fname h
    rw [extractUpload, h]
    show (extractCsv content).isOk = true ↔ _
    rw [extractCsv]
    rcases hp : parseCsvModel content with e | rows
    · simp [Except.isOk, Except.toBool]
    · rcases rows with _ | ⟨hd, tl⟩ <;> simp [Except.isOk, Except.toBool]

/-- Witness for C8 at concrete inputs. -/
theorem c8_upload_kind_detection_witness :
    extractUpload "x" "application/json" "data.bin" = .error .unsupportedFormat ∧
    (extractUpload "hello" "application/pdf" "f").isOk = true ∧
    ((extractUpload "a,b" "text/csv" "f").isOk = true ↔
      (parseCsvModel "a,b").isOk = true) :=
  ⟨(c8_upload_kind_detection.1 "x" "application/json" "data.bin").mpr (by decide),
   c8_upload_kind_detection.2.1 "hello" "application/pdf" "f" (by decide),
   c8_upload_kind_detection.2.2 "a,b" "text/csv" "f" (by decide)⟩

/-- JavaScript property access `o[key]` on the association-list object model
(objects never hold a key twice, so the first match is the binding). -/
def rawLookup (rawJson : List (String × Jv)) (key : String) : Option Jv :=
  (rawJson.find? fun p => p.1 == key).map fun p => p.2

/-- Scalar JSON values: null, strings and booleans. -/
def isScalar : Jv → Bool
  | .null => true
  | .str _ => true
  | .bool _ => true
  | .arr _ => false
  | .obj _ => false

theorem string_eq_of_data_eq {a b : String} (h : a.data = b.data) : a = b := by
  cases a
  cases b
  simp only at h
  rw [h]

theorem keyLe_antisymm {a b : String} (h1 : keyLe a b = true) (h2 : keyLe b a = true) :
    a = b :=
  string_eq_of_data_eq (keyLeChars_antisymm a.data b.data h1 h2)

theorem rawLookup_eq_some_of_mem {j : List (String × Jv)} {p : String × Jv}
    (hnd : (j.map Prod.fst).Nodup) (hp : p ∈ j) : rawLookup j p.1 = some p.2 := by
  induction j with
  | nil => cases hp
  | cons q rest ih =>
    rw [List.map_cons, List.nodup_cons] at hnd
    rcases List.mem_cons.mp hp with h | h
    · subst h
      rw [rawLookup, List.find?_cons_of_pos _ (by simp)]
      rfl
    · have hne : q.1 ≠ p.1 := by
        intro he
        apply hnd.1
        rw [he]
        exact List.mem_map_of_mem Prod.fst h
      rw [rawLookup, List.find?_cons_of_neg _ (by simp [hne])]
      exact ih hnd.2 h

theorem mem_of_rawLookup_eq_some {j : List (String × Jv)} {k : String} {v : Jv}
    (h : rawLookup j k = some v) : (k, v) ∈ j := by
  induction j with
  | nil => cases h
  | cons q rest ih =>
    rw [rawLookup] at h
    rcases hq : (q.1 == k) with _ | _
    · rw [List.find?_cons_of_neg _ (by simp [hq])] at h
      exact List.mem_cons_of_mem q (ih h)
    · rw [List.find?_cons_of_pos _ (by simp [hq])] at h
      have h2 : some q.2 = some v := h
      have h3 : q.2 = v := by injection h2
      have hk : q.1 = k := by
        have := hq
        rwa [beq_iff_eq] at this
      have hqp : q = (k, v) := by
        rcases q with ⟨qk, qv⟩
        rw [show (qk, qv).1 = qk from rfl] at hk
        rw [show (qk, qv).2 = qv from rfl] at h3
        rw [hk, h3]
      rw [← hqp]
      exact List.mem_cons_self q rest

theorem sorted_perm_nodup_keys_eq :
    ∀ (l1 l2 : List (String × Jv)), l1.Perm l2 →
      List.Sorted pairLe l1 → List.Sorted pairLe l2 →
      (l1.map Prod.fst).Nodup → l1 = l2 := by
  intro l1
  induction l1 with
  | nil =>
    intro l2 hperm _ _ _
    exact hperm.nil_eq
  | cons a t1 ih =>
    intro l2 hperm hs1 hs2 hnd
    cases l2 with
    | nil => exact absurd hperm.symm.nil_eq (by simp)
    | cons b t2 =>
      have hab : a = b := by
        have hbmem : b ∈ a :: t1 := hperm.mem_iff.mpr (List.mem_cons_self b t2)
        have hamem : a ∈ b :: t2 := hperm.mem_iff.mp (List.mem_cons_self a t1)
        rcases List.mem_cons.mp hbmem with h | hbt
        · exact h.symm
        · rcases List.mem_cons.mp hamem with h | hat
          · exact h
          · exfalso
            have h1 : pairLe a b := List.rel_of_sorted_cons hs1 b hbt
            have h2 : pairLe b a := List.rel_of_sorted_cons hs2 a hat
            have hkey : a.1 = b.1 := keyLe_antisymm h1 h2
            rw [List.map_cons, List.nodup_cons] at hnd
            apply hnd.1
            rw [hkey]
            exact List.mem_map_of_mem Prod.fst hbt
      subst hab
      have htails : t1.Perm t2 := hperm.cons_inv
      have hndt : (t1.map Prod.fst).Nodup := by
        rw [List.map_cons, List.nodup_cons] at hnd
        exact hnd.2
      exact congrArg (List.cons a) (ih t2 htails hs1.of_cons hs2.of_cons hndt)

theorem sortPairs_sorted (l : List (String × Jv)) : List.Sorted pairLe (sortPairs l) :=
  List.sorted_insertionSort pairLe l

theorem sortPairs_eq_of_lookup_eq {j1 j2 : List (String × Jv)}
    (hnd1 : (j1.map Prod.fst).Nodup) (hnd2 : (j2.map Prod.fst).Nodup)
    (hmap : ∀ k, rawLookup j1 k = rawLookup j2 k) : sortPairs j1 = sortPairs j2 := by
  have hpnd1 : j1.Nodup := hnd1.of_map
  have hpnd2 : j2.Nodup := hnd2.of_map
  have hperm : j1.Perm j2 := by
    rw [List.perm_ext_iff_of_nodup hpnd1 hpnd2]
    intro p
    constructor
    · intro hp
      exact mem_of_rawLookup_eq_some ((hmap p.1).symm.trans (rawLookup_eq_some_of_mem hnd1 hp))
    · intro hp
      exact mem_of_rawLookup_eq_some ((hmap p.1).trans (rawLookup_eq_some_of_mem hnd2 hp))
  have hperm2 : (sortPairs j1).Perm (sortPairs j2) :=
    ((List.perm_insertionSort pairLe j1).trans hperm).trans
      (List.perm_insertionSort pairLe j2).symm
  apply sorted_perm_nodup_keys_eq _ _ hperm2 (sortPairs_sorted j1) (sortPairs_sorted j2)
  have hpermmap : ((sortPairs j1).map Prod.fst).Perm (j1.map Prod.fst) :=
    (List.perm_insertionSort pairLe j1).map Prod.fst
  exact hpermmap.nodup_iff.mpr hnd1

theorem rowSha256OfRawJson_eq_of_lookup_eq {j1 j2 : List (String × Jv)}
    (hnd1 : (j1.map Prod.fst).Nodup) (hnd2 : (j2.map Prod.fst).Nodup)
    (hmap : ∀ k, rawLookup j1 k = rawLookup j2 k) :
    rowSha256OfRawJson j1 = rowSha256OfRawJson j2 := by
  have hsort := sortPairs_eq_of_lookup_eq hnd1 hnd2 hmap
  have hcanon : canonicalizeRowValue (.obj j1) none = canonicalizeRowValue (.obj j2) none := by
    simp only [canonicalizeRowValue]
    exact congrArg
      (fun l => Jv.obj (l.attach.map fun p => (p.1.1, canonicalizeRowValue p.1.2 (some p.1.1))))
      hsort
  rw [rowSha256OfRawJson, rowSha256OfRawJson, hcanon]

/-- C1: two raw records whose raw JSON objects agree as finite maps from
field name to scalar value (same key set, same value per key, any
enumeration order) receive the same `rowSha256` from
`normalizeExtractedRecords`. -/
theorem c1_row_hash_key_order_invariant (mt : String) (i1 i2 : Nat)
    (j1 j2 : List (String × Jv))
    (hnd1 : (j1.map Prod.fst).Nodup) (hnd2 : (j2.map Prod.fst).Nodup)
    (_hs1 : ∀ p ∈ j1, isScalar p.2 = true) (_hs2 : ∀ p ∈ j2, isScalar p.2 = true)
    (hmap : ∀ k, rawLookup j1 k = rawLookup j2 k) :
    (normalizeExtractedRecords ⟨mt, [⟨j1, i1⟩]⟩).records.map (fun r => r.rowSha256) =
      (normalizeExtractedRecords ⟨mt, [⟨j2, i2⟩]⟩).records.map (fun r => r.rowSha256) := by
  simp only [normalizeExtractedRecords, List.map_cons, List.map_nil]
  rw [rowSha256OfRawJson_eq_of_lookup_eq hnd1 hnd2 hmap]

/-- Witness for C1: the same two-field row in both key orders. -/
theorem c1_row_hash_key_order_invariant_witness :
    (normalizeExtractedRecords
      ⟨"text/csv", [⟨[("amount", .str "5"), ("description", .str "x")], 0⟩]⟩).records.map
        (fun r => r.rowSha256) =
      (normalizeExtractedRecords
        ⟨"text/csv", [⟨[("description", .str "x"), ("amount", .str "5")], 1⟩]⟩).records.map
          (fun r => r.rowSha256) := by
  apply c1_row_hash_key_order_invariant
  · decide
  · decide
  · intro p hp
    rcases List.mem_cons.mp hp with h | h
    · rw [h]
      rfl
    · rcases List.mem_cons.mp h with h2 | h2
      · rw [h2]
        rfl
      · cases h2
  · intro p hp
    rcases List.mem_cons.mp hp with h | h
    · rw [h]
      rfl
    · rcases List.mem_cons.mp h with h2 | h2
      · rw [h2]
        rfl
      · cases h2
  · intro k
    by_cases h1 : "amount" = k
    · subst h1
      rfl
    · by_cases h2 : "description" = k
      · subst h2
        rfl
      · show (List.find? _ _).map _ = (List.find? _ _).map _
        rw [List.find?_cons_of_neg _ (by simp [h1]), List.find?_cons_of_neg _ (by simp [h2]),
          List.find?_cons_of_neg _ (by simp [h2]), List.find?_cons_of_neg _ (by simp [h1])]

theorem dropWhile_head_false {p : Char → Bool} :
    ∀ {l : List Char} {c : Char}, (l.dropWhile p).head? = some c → p c = false := by
  intro l
  induction l with
  | nil => intro c h; cases h
  | cons a rest ih =>
    intro c h
    by_cases ha : p a = true
    · rw [List.dropWhile_cons_of_pos ha] at h
      exact ih h
    · rw [List.dropWhile_cons_of_neg ha] at h
      rw [List.head?_cons, Option.some.injEq] at h
      subst h
      exact Bool.not_eq_true _ ▸ ha

theorem dropWhile_getLast_of_ne_nil {p : Char → Bool} {l : List Char}
    (h : l.dropWhile p ≠ []) : (l.dropWhile p).getLast? = l.getLast? := by
  conv_rhs => rw [← List.takeWhile_append_dropWhile (p := p) (l := l)]
  rw [List.getLast?_append_of_ne_nil _ h]

theorem trim_eq_self_of_ends {l : List Char}
    (hhead : ∀ c, l.head? = some c → isJsWs c = false)
    (hlast : ∀ c, l.getLast? = some c → isJsWs c = false) : jsTrimL l = l := by
  cases l with
  | nil => rfl
  | cons a rest =>
    unfold jsTrimL
    rw [List.dropWhile_cons_of_neg (by simp [hhead a rfl])]
    cases hrev : (a :: rest).reverse with
    | nil => exact absurd hrev (by simp)
    | cons b brest =>
      have hb : (a :: rest).getLast? = some b := by
        rw [← List.head?_reverse, hrev]
        rfl
      rw [List.dropWhile_cons_of_neg (by simp [hlast b hb])]
      rw [← hrev, List.reverse_reverse]

theorem jsTrimL_head_false {l : List Char} {c : Char}
    (h : (jsTrimL l).head? = some c) : isJsWs c = false := by
  unfold jsTrimL at h
  rw [List.head?_reverse] at h
  have hne : (((l.dropWhile isJsWs).reverse).dropWhile isJsWs) ≠ [] := by
    intro hnil
    rw [hnil] at h
    cases h
  rw [dropWhile_getLast_of_ne_nil hne, List.getLast?_reverse] at h
  exact dropWhile_head_false h

theorem jsTrimL_getLast_false {l : List Char} {c : Char}
    (h : (jsTrimL l).getLast? = some c) : isJsWs c = false := by
  unfold jsTrimL at h
  rw [List.getLast?_reverse] at h
  exact dropWhile_head_false h

theorem jsTrimL_idem (l : List Char) : jsTrimL (jsTrimL l) = jsTrimL l :=
  trim_eq_self_of_ends (fun _ h => jsTrimL_head_false h) (fun _ h => jsTrimL_getLast_false h)

theorem char_toNat_ofNat {n : Nat} (h : n < 55296) : (Char.ofNat n).toNat = n := by
  rw [Char.ofNat]
  simp [Nat.isValidChar, h, Char.ofNatAux, Char.toNat, UInt32.toNat, BitVec.toNat_ofNatLt]

theorem isJsWs_false_of_mid_range {c : Char} (h1 : 33 ≤ c.toNat) (h2 : c.toNat ≤ 159) :
    isJsWs c = false := by
  simp only [isJsWs, Bool.or_eq_false_iff, decide_eq_false_iff_not, Bool.and_eq_false_iff]
  omega

theorem lowerChar_cond_iff (c : Char) :
    (('A' ≤ c && c ≤ 'Z') = true) ↔ (65 ≤ c.toNat ∧ c.toNat ≤ 90) := by
  simp only [Bool.and_eq_true, decide_eq_true_eq, Char.le_def]
  exact Iff.rfl

theorem lowerChar_toNat_of_upper {c : Char} (h1 : 65 ≤ c.toNat) (h2 : c.toNat ≤ 90) :
    (lowerChar c).toNat = c.toNat + 32 := by
  rw [lowerChar, if_pos ((lowerChar_cond_iff c).mpr ⟨h1, h2⟩)]
  exact char_toNat_ofNat (by omega)

theorem lowerChar_eq_of_not_upper {c : Char} (h : c.toNat < 65 ∨ 90 < c.toNat) :
    lowerChar c = c := by
  rw [lowerChar, if_neg]
  intro hc
  have h2 := (lowerChar_cond_iff c).mp hc
  omega

theorem lowerChar_idem (c : Char) : lowerChar (lowerChar c) = lowerChar c := by
  by_cases h : 65 ≤ c.toNat ∧ c.toNat ≤ 90
  · apply lowerChar_eq_of_not_upper
    rw [lowerChar_toNat_of_upper h.1 h.2]
    omega
  · have h2 : c.toNat < 65 ∨ 90 < c.toNat := by omega
    rw [lowerChar_eq_of_not_upper h2, lowerChar_eq_of_not_upper h2]

theorem isJsWs_lowerChar (c : Char) : isJsWs (lowerChar c) = isJsWs c := by
  by_cases h : 65 ≤ c.toNat ∧ c.toNat ≤ 90
  · rw [@isJsWs_false_of_mid_range c (by omega) (by omega)]
    apply isJsWs_false_of_mid_range
    · rw [lowerChar_toNat_of_upper h.1 h.2]
      omega
    · rw [lowerChar_toNat_of_upper h.1 h.2]
      omega
  · have h2 : c.toNat < 65 ∨ 90 < c.toNat := by omega
    rw [lowerChar_eq_of_not_upper h2]

theorem collapseWsAux_cons (b : Bool) (c : Char) (rest : List Char) :
    collapseWsAux b (c :: rest) =
      if isJsWs c then (if b then [] else [' ']) ++ collapseWsAux true rest
      else c :: collapseWsAux false rest := rfl

theorem collapseWsAux_map_lower (l : List Char) :
    ∀ b, (collapseWsAux b l).map lowerChar = collapseWsAux b (l.map lowerChar) := by
  induction l with
  | nil => intro b; rfl
  | cons c rest ih =>
    intro b
    rw [List.map_cons, collapseWsAux_cons, collapseWsAux_cons, isJsWs_lowerChar]
    by_cases hw : isJsWs c = true
    · rw [if_pos hw, if_pos hw, List.map_append, ih true]
      congr 1
      cases b
      · rfl
      · rfl
    · rw [if_neg hw, if_neg hw, List.map_cons, ih false]

theorem collapseWsAux_collapse (l : List Char) :
    ∀ b, collapseWsAux b (collapseWsAux b l) = collapseWsAux b l ∧
      collapseWsAux false (collapseWsAux true l) = collapseWsAux true l := by
  induction l with
  | nil => intro b; exact ⟨rfl, rfl⟩
  | cons c rest ih =>
    intro b
    by_cases hw : isJsWs c = true
    · constructor
      · cases b
        · rw [collapseWsAux_cons, if_pos hw, if_neg Bool.false_ne_true,
            List.singleton_append, collapseWsAux_cons,
            if_pos (show isJsWs ' ' = true from rfl), if_neg Bool.false_ne_true,
            List.singleton_append]
          exact congrArg (List.cons ' ') (ih true).1
        · rw [collapseWsAux_cons, if_pos hw, if_pos rfl, List.nil_append]
          exact (ih true).1
      · rw [collapseWsAux_cons, if_pos hw, if_pos rfl, List.nil_append]
        exact (ih true).2
    · constructor
      · rw [collapseWsAux_cons, if_neg hw, collapseWsAux_cons, if_neg hw]
        exact congrArg (List.cons c) (ih false).1
      · rw [collapseWsAux_cons, if_neg hw, collapseWsAux_cons, if_neg hw]
        exact congrArg (List.cons c) (ih false).1

theorem cwAux_head {l : List Char} {b : Bool} {c : Char}
    (h : l.head? = some c) (hc : isJsWs c = false) :
    (collapseWsAux b l).head? = some c := by
  cases l with
  | nil => cases h
  | cons a rest =>
    have ha : a = c := by simpa using h
    subst ha
    rw [collapseWsAux_cons, if_neg (by rw [hc]; exact Bool.false_ne_true)]
    rfl

theorem cwAux_getLast (l : List Char) :
    ∀ b c, l.getLast? = some c → isJsWs c = false →
      (collapseWsAux b l).getLast? = some c := by
  induction l with
  | nil => intro b c h _; cases h
  | cons a rest ih =>
    intro b c h hc
    cases rest with
    | nil =>
      have ha : a = c := by simpa using h
      subst ha
      rw [collapseWsAux_cons, if_neg (by rw [hc]; exact Bool.false_ne_true)]
      rfl
    | cons r rs =>
      have hrest : (r :: rs).getLast? = some c := by
        rw [← List.getLast?_cons_cons]
        exact h
      by_cases hw : isJsWs a = true
      · rw [collapseWsAux_cons, if_pos hw]
        have hx := ih true c hrest hc
        have hxe : collapseWsAux true (r :: rs) ≠ [] := by
          intro h0
          rw [h0] at hx
          cases hx
        rw [List.getLast?_append_of_ne_nil _ hxe]
        exact hx
      · rw [collapseWsAux_cons, if_neg hw]
        have hx := ih false c hrest hc
        have hxe : collapseWsAux false (r :: rs) ≠ [] := by
          intro h0
          rw [h0] at hx
          cases hx
        rw [show a :: collapseWsAux false (r :: rs) = [a] ++ collapseWsAux false (r :: rs) from rfl,
          List.getLast?_append_of_ne_nil _ hxe]
        exact hx

theorem cwAux_head_ws_false {l : List Char} {b : Bool} {c : Char}
    (hh : ∀ d, l.head? = some d → isJsWs d = false)
    (h : (collapseWsAux b l).head? = some c) : isJsWs c = false := by
  cases l with
  | nil => cases h
  | cons a rest =>
    have hd := hh a rfl
    rw [cwAux_head (show (a :: rest).head? = some a from rfl) hd] at h
    cases h
    exact hd

theorem cwAux_getLast_ws_false {l : List Char} {b : Bool} {c : Char}
    (hl : ∀ d, l.getLast? = some d → isJsWs d = false)
    (h : (collapseWsAux b l).getLast? = some c) : isJsWs c = false := by
  cases he : l.getLast? with
  | none =>
    rw [List.getLast?_eq_none_iff] at he
    subst he
    cases h
  | some d =>
    have hd := hl d he
    rw [cwAux_getLast l b d he hd] at h
    cases h
    exact hd

theorem jsTrim_eq_self {s : String} (h : ∀ c ∈ s.data, isJsWs c = false) : jsTrim s = s := by
  have ht : jsTrimL s.data = s.data :=
    trim_eq_self_of_ends
      (fun c hc => h c (List.mem_of_mem_head? hc))
      (fun c hc => h c (List.mem_of_mem_getLast? hc))
  show String.mk (jsTrimL s.data) = s
  rw [ht]

theorem lowercase_key_not_date_not_numeric {fk : Option String}
    (h : isLowercaseTextFieldKey fk = true) :
    isDateFieldKey fk = false ∧ isNumericFieldKey fk = false := by
  rw [isLowercaseTextFieldKey] at h
  rw [isDateFieldKey, isNumericFieldKey]
  set k := normalizeRuleKey fk with hk
  have hmem : k ∈ LOWERCASE_TEXT_FIELD_KEYS := by simpa using h
  simp only [LOWERCASE_TEXT_FIELD_KEYS, List.mem_cons, List.not_mem_nil, or_false] at hmem
  rcases hmem with h1 | h1 | h1 | h1 | h1 | h1 <;> (rw [h1]; exact ⟨by decide, by decide⟩)

theorem pad2L_all_digits (n : Nat) : ∀ c ∈ pad2L n, isAsciiDigit c = true := by
  intro c hc
  simp only [pad2L, List.mem_cons, List.not_mem_nil, or_false] at hc
  rcases hc with h | h <;> (subst h; exact digitChar_isDigit _)

theorem pad4L_all_digits (n : Nat) : ∀ c ∈ pad4L n, isAsciiDigit c = true := by
  intro c hc
  simp only [pad4L, List.mem_cons, List.not_mem_nil, or_false] at hc
  rcases hc with h | h | h | h <;> (subst h; exact digitChar_isDigit _)

theorem digitsToNat_pad2L {n : Nat} (h : n < 100) : digitsToNat (pad2L n) = n := by
  have e1 : n / 10 % 10 < 10 := Nat.mod_lt _ (by omega)
  have e2 : n % 10 < 10 := Nat.mod_lt _ (by omega)
  simp only [pad2L, digitsToNat, List.foldl_cons, List.foldl_nil,
    digitChar_lt_ten_eq _ e1, digitChar_lt_ten_eq _ e2]
  omega

theorem digitsToNat_pad4L {n : Nat} (h : n < 10000) : digitsToNat (pad4L n) = n := by
  have e1 : n / 1000 % 10 < 10 := Nat.mod_lt _ (by omega)
  have e2 : n / 100 % 10 < 10 := Nat.mod_lt _ (by omega)
  have e3 : n / 10 % 10 < 10 := Nat.mod_lt _ (by omega)
  have e4 : n % 10 < 10 := Nat.mod_lt _ (by omega)
  simp only [pad4L, digitsToNat, List.foldl_cons, List.foldl_nil,
    digitChar_lt_ten_eq _ e1, digitChar_lt_ten_eq _ e2,
    digitChar_lt_ten_eq _ e3, digitChar_lt_ten_eq _ e4]
  omega

theorem render_chars (y m d : Nat) :
    ∀ c ∈ pad4L y ++ '-' :: (pad2L m ++ '-' :: pad2L d),
      isAsciiDigit c = true ∨ c = '-' := by
  intro c hc
  simp only [List.mem_append, List.mem_cons] at hc
  rcases hc with h | h | h | h | h
  · exact Or.inl (pad4L_all_digits y c h)
  · exact Or.inr h
  · exact Or.inl (pad2L_all_digits m c h)
  · exact Or.inr h
  · exact Or.inl (pad2L_all_digits d c h)

theorem isJsWs_false_of_render {c : Char} (h : isAsciiDigit c = true ∨ c = '-') :
    isJsWs c = false := by
  rcases h with h | h
  · exact isJsWs_of_digit h
  · subst h
    decide

theorem isoDateMatch_render {y m d : Nat} (hy1 : 100 ≤ y) (hy2 : y ≤ 9999)
    (hm : m ≤ 99) (hd : d ≤ 99) :
    isoDateMatch (String.mk (pad4L y ++ '-' :: (pad2L m ++ '-' :: pad2L d))) =
      some (y, m, d) := by
  simp only [isoDateMatch, pad4L, pad2L, List.cons_append, List.nil_append]
  rw [if_pos (by simp [digitChar_isDigit])]
  rw [show [digitChar (y / 1000 % 10), digitChar (y / 100 % 10), digitChar (y / 10 % 10),
        digitChar (y % 10)] = pad4L y from rfl,
    show [digitChar (m / 10 % 10), digitChar (m % 10)] = pad2L m from rfl,
    show [digitChar (d / 10 % 10), digitChar (d % 10)] = pad2L d from rfl,
    digitsToNat_pad4L (show y < 10000 by omega),
    digitsToNat_pad2L (show m < 100 by omega),
    digitsToNat_pad2L (show d < 100 by omega)]

theorem toIsoDate_roundtrip {y m d : Nat} {r : String} (h : toIsoDate y m d = some r) :
    normalizeDateString r = some r := by
  have hcb : (100 ≤ y && y ≤ 9999 && calendarValid y m d) = true := by
    by_contra hn
    rw [toIsoDate, if_neg hn] at h
    cases h
  rw [toIsoDate, if_pos hcb] at h
  have hr : r = String.mk (pad4L y ++ '-' :: (pad2L m ++ '-' :: pad2L d)) := by
    injection h with h2
    exact h2.symm
  subst hr
  have hcb2 := hcb
  simp only [Bool.and_eq_true, decide_eq_true_eq, calendarValid] at hcb2
  have hdm : daysInMonth y m ≤ 31 := by
    rw [daysInMonth]
    split
    · split <;> omega
    · split <;> omega
  have hbounds : 100 ≤ y ∧ y ≤ 9999 ∧ 1 ≤ m ∧ m ≤ 12 ∧ 1 ≤ d ∧ d ≤ 31 := by omega
  have hchars : ∀ c ∈ (pad4L y ++ '-' :: (pad2L m ++ '-' :: pad2L d)), isJsWs c = false :=
    fun c hc => isJsWs_false_of_render (render_chars y m d c hc)
  have htrim : jsTrim (nfkc (String.mk (pad4L y ++ '-' :: (pad2L m ++ '-' :: pad2L d)))) =
      String.mk (pad4L y ++ '-' :: (pad2L m ++ '-' :: pad2L d)) := jsTrim_eq_self hchars
  have hne : String.mk (pad4L y ++ '-' :: (pad2L m ++ '-' :: pad2L d)) ≠ "" := by
    intro h0
    have h1 : (pad4L y ++ '-' :: (pad2L m ++ '-' :: pad2L d)) = [] := congrArg String.data h0
    simp [pad4L] at h1
  simp only [normalizeDateString]
  rw [htrim, if_neg hne,
    isoDateMatch_render hbounds.1 hbounds.2.1 (by omega) (by omega)]
  show toIsoDate y m d = _
  rw [toIsoDate, if_pos hcb]

theorem isoDateMatch_none_of_len {s : String} (h : s.data.length ≠ 10) :
    isoDateMatch s = none := by
  rw [isoDateMatch]
  split
  · rename_i heq
    exfalso
    apply h
    rw [heq]
    rfl
  · rfl

theorem slashDateMatch_none_of_four {s : String} {y1 y2 y3 y4 : Char} {rest : List Char}
    (heq : s.data = y1 :: y2 :: y3 :: y4 :: '-' :: rest)
    (h1 : isAsciiDigit y1 = true) (h2 : isAsciiDigit y2 = true)
    (h3 : isAsciiDigit y3 = true) (h4 : isAsciiDigit y4 = true) :
    slashDateMatch s = none := by
  rw [slashDateMatch, List.span_eq_take_drop, heq]
  rw [List.takeWhile_cons_of_pos h1, List.takeWhile_cons_of_pos h2,
    List.takeWhile_cons_of_pos h3, List.takeWhile_cons_of_pos h4,
    List.takeWhile_cons_of_neg (by decide)]
  simp

theorem dateParseToIso_roundtrip {x r : String} (h : dateParseToIso x = some r) :
    normalizeDateString r = some r := by
  have h0 := h
  have hrx : x = r := by
    rw [dateParseToIso] at h
    split at h
    · split at h
      · exact Option.some.inj h
      · cases h
    · cases h
  subst hrx
  rw [dateParseToIso] at h
  split at h
  · rename_i y1 y2 y3 y4 ca mo1 mo2 cb d1 d2 ct hh1 hh2 cc mi1 mi2 cd s1 s2 ce f1 f2 f3 cz heq
    split at h
    · rename_i hcond
      simp only [Bool.and_eq_true, decide_eq_true_eq, List.all_eq_true, and_assoc] at hcond
      obtain ⟨hca, hcb, hct, hcc, hcd, hce, hcz, hall, hcal, hhh, hhm, hhs⟩ := hcond
      subst hca
      subst hcb
      subst hct
      subst hcc
      subst hcd
      subst hce
      subst hcz
      have hd1 := hall y1 (by simp)
      have hd2 := hall y2 (by simp)
      have hd3 := hall y3 (by simp)
      have hd4 := hall y4 (by simp)
      have hchars : ∀ c ∈ x.data, isJsWs c = false := by
        intro c hc
        rw [heq] at hc
        simp only [List.mem_cons, List.not_mem_nil, or_false] at hc
        rcases hc with hc | hc | hc | hc | hc | hc | hc | hc | hc | hc | hc | hc | hc | hc |
          hc | hc | hc | hc | hc | hc | hc | hc | hc | hc
        all_goals subst hc
        all_goals first
          | decide
          | exact isJsWs_of_digit (hall _ (by simp))
      have htrim : jsTrim (nfkc x) = x := jsTrim_eq_self hchars
      have hne : x ≠ "" := by
        intro h1
        have h2 : x.data = [] := congrArg String.data h1
        rw [heq] at h2
        cases h2
      have hiso : isoDateMatch x = none := isoDateMatch_none_of_len (by rw [heq]; simp)
      have hslash : slashDateMatch x = none :=
        slashDateMatch_none_of_four heq hd1 hd2 hd3 hd4
      simp only [normalizeDateString]
      rw [htrim, if_neg hne, hiso, hslash]
      show dateParseToIso x = some x
      exact h0
    · cases h
  · cases h

theorem normalizeDateString_roundtrip {x r : String} (h : normalizeDateString x = some r) :
    normalizeDateString r = some r := by
  simp only [normalizeDateString] at h
  split at h
  · cases h
  · split at h
    · exact toIsoDate_roundtrip h
    · split at h
      · exact toIsoDate_roundtrip h
      · exact dateParseToIso_roundtrip h

theorem renderScaled_chars (m : Int) :
    ∀ c ∈ (renderScaled m).data, isAsciiDigit c = true ∨ c = '-' ∨ c = '.' := by
  intro c hc
  rw [renderScaled_data, List.mem_append] at hc
  rcases hc with hc | hc
  · split at hc
    · simp only [List.mem_singleton] at hc
      exact Or.inr (Or.inl hc)
    · exact absurd hc (List.not_mem_nil c)
  · rcases body_chars (m.natAbs / 1000000) (m.natAbs % 1000000) c hc with h | h
    · exact Or.inr (Or.inr h)
    · exact Or.inl h

theorem dot_mem_renderScaled (m : Int) : '.' ∈ (renderScaled m).data := by
  rw [renderScaled_data, List.mem_append]
  exact Or.inr (List.mem_append.mpr (Or.inr (List.mem_cons_self _ _)))

theorem isoDateMatch_chars {s : String} {v : Nat × Nat × Nat} (h : isoDateMatch s = some v) :
    ∀ c ∈ s.data, isAsciiDigit c = true ∨ c = '-' := by
  rw [isoDateMatch] at h
  split at h
  · rename_i heq
    split at h
    · rename_i hcond
      simp only [Bool.and_eq_true, decide_eq_true_eq, List.all_eq_true, and_assoc] at hcond
      obtain ⟨hc1, hc2, hall⟩ := hcond
      subst hc1
      subst hc2
      intro c hc
      rw [heq] at hc
      simp only [List.mem_cons, List.not_mem_nil, or_false] at hc
      rcases hc with hc | hc | hc | hc | hc | hc | hc | hc | hc | hc
      all_goals subst hc
      all_goals first
        | exact Or.inr rfl
        | exact Or.inl (hall _ (by simp))
    · cases h
  · cases h

theorem slashDateMatch_chars {s : String} {v : Nat × Nat × List Char}
    (h : slashDateMatch s = some v) :
    ∀ c ∈ s.data, isAsciiDigit c = true ∨ c = '/' ∨ c = '-' := by
  rw [slashDateMatch, List.span_eq_take_drop] at h
  split at h
  rename_i mo r1 heq0
  cases heq0
  split at h
  · cases h
  · split at h
    · rename_i sep1 r2 heq1
      split at h
      · rename_i hsep1
        rw [List.span_eq_take_drop] at h
        split at h
        rename_i da r3 heq2
        cases heq2
        split at h
        · cases h
        · split at h
          · rename_i sep2 r4 heq3
            split at h
            · rename_i hsep2
              rw [List.span_eq_take_drop] at h
              split at h
              rename_i yr r5 heq4
              cases heq4
              split at h
              · rename_i hyr
                simp only [Bool.or_eq_true, Bool.and_eq_true, decide_eq_true_eq,
                  and_assoc] at hsep1 hsep2 hyr
                have hr5 : r4.dropWhile isAsciiDigit = [] := hyr.2.2
                have hsd : s.data = s.data.takeWhile isAsciiDigit ++ (sep1 :: r2) := by
                  rw [← heq1]
                  exact (List.takeWhile_append_dropWhile (p := isAsciiDigit) (l := s.data)).symm
                have hr2 : r2 = r2.takeWhile isAsciiDigit ++ (sep2 :: r4) := by
                  rw [← heq3]
                  exact (List.takeWhile_append_dropWhile (p := isAsciiDigit) (l := r2)).symm
                have hr4 : r4 = r4.takeWhile isAsciiDigit := by
                  conv_lhs => rw [← List.takeWhile_append_dropWhile (p := isAsciiDigit) (l := r4)]
                  rw [hr5, List.append_nil]
                intro c hc
                rw [hsd, List.mem_append] at hc
                rcases hc with hc | hc
                · exact Or.inl (List.mem_takeWhile_imp hc)
                · rw [List.mem_cons] at hc
                  rcases hc with hc | hc
                  · subst hc
                    rcases hsep1 with h1 | h1
                    · exact Or.inr (Or.inl h1)
                    · exact Or.inr (Or.inr h1)
                  · rw [hr2, List.mem_append] at hc
                    rcases hc with hc | hc
                    · exact Or.inl (List.mem_takeWhile_imp hc)
                    · rw [List.mem_cons] at hc
                      rcases hc with hc | hc
                      · subst hc
                        rcases hsep2 with h1 | h1
                        · exact Or.inr (Or.inl h1)
                        · exact Or.inr (Or.inr h1)
                      · rw [hr4] at hc
                        exact Or.inl (List.mem_takeWhile_imp hc)
              · cases h
            · cases h
          · cases h
      · cases h
    · cases h

theorem dateParseToIso_T {s r : String} (h : dateParseToIso s = some r) : 'T' ∈ s.data := by
  rw [dateParseToIso] at h
  split at h
  · rename_i heq
    split at h
    · rename_i hcond
      simp only [Bool.and_eq_true, decide_eq_true_eq, and_assoc] at hcond
      rw [heq, hcond.2.2.1]
      simp
    · cases h
  · cases h

theorem normalizeDateString_renderScaled_none (m : Int) :
    normalizeDateString (renderScaled m) = none := by
  have hchars := renderScaled_chars m
  have hdot := dot_mem_renderScaled m
  have hws : ∀ c ∈ (renderScaled m).data, isJsWs c = false := by
    intro c hc
    rcases hchars c hc with h | h | h
    · exact isJsWs_of_digit h
    · subst h
      decide
    · subst h
      decide
  have htrim : jsTrim (nfkc (renderScaled m)) = renderScaled m := jsTrim_eq_self hws
  have hne : renderScaled m ≠ "" := by
    intro h0
    have h1 : (renderScaled m).data = [] := congrArg String.data h0
    rw [h1] at hdot
    cases hdot
  have hiso : isoDateMatch (renderScaled m) = none := by
    cases hi : isoDateMatch (renderScaled m) with
    | none => rfl
    | some v =>
      exfalso
      rcases isoDateMatch_chars hi '.' hdot with h | h
      · exact absurd h (by decide)
      · exact absurd h (by decide)
  have hslash : slashDateMatch (renderScaled m) = none := by
    cases hi : slashDateMatch (renderScaled m) with
    | none => rfl
    | some v =>
      exfalso
      rcases slashDateMatch_chars hi '.' hdot with h | h | h
      · exact absurd h (by decide)
      · exact absurd h (by decide)
      · exact absurd h (by decide)
  have hparse : dateParseToIso (renderScaled m) = none := by
    cases hi : dateParseToIso (renderScaled m) with
    | none => rfl
    | some v =>
      exfalso
      rcases hchars 'T' (dateParseToIso_T hi) with h | h | h
      · exact absurd h (by decide)
      · exact absurd h (by decide)
      · exact absurd h (by decide)
  simp only [normalizeDateString]
  rw [htrim, if_neg hne, hiso, hslash, hparse]

theorem jsTrim_idem (y : String) : jsTrim (jsTrim y) = jsTrim y := by
  show String.mk (jsTrimL (jsTrimL y.data)) = String.mk (jsTrimL y.data)
  rw [jsTrimL_idem]

theorem normalizeDateString_trim (x : String) :
    normalizeDateString (jsTrim (nfkc x)) = normalizeDateString x := by
  simp only [normalizeDateString]
  rw [show nfkc (jsTrim (nfkc x)) = jsTrim (nfkc x) from rfl, jsTrim_idem]

theorem normalizeDecimalString_trim (x : String) :
    normalizeDecimalString (jsTrim (nfkc x)) = normalizeDecimalString x := by
  simp only [normalizeDecimalString]
  rw [show (nfkc (jsTrim (nfkc x))).data = jsTrimL (nfkc x).data from rfl, jsTrimL_idem]

theorem lower_head_ws_false {T : List Char}
    (hh : ∀ d, T.head? = some d → isJsWs d = false) :
    ∀ d, (T.map lowerChar).head? = some d → isJsWs d = false := by
  intro d hd
  rw [List.head?_map] at hd
  cases ht : T.head? with
  | none =>
    rw [ht] at hd
    cases hd
  | some a =>
    rw [ht] at hd
    have hd2 : some (lowerChar a) = some d := hd
    cases hd2
    rw [isJsWs_lowerChar]
    exact hh a ht

theorem lower_getLast_ws_false {T : List Char}
    (hl : ∀ d, T.getLast? = some d → isJsWs d = false) :
    ∀ d, (T.map lowerChar).getLast? = some d → isJsWs d = false := by
  intro d hd
  rw [List.getLast?_map] at hd
  cases ht : T.getLast? with
  | none =>
    rw [ht] at hd
    cases hd
  | some a =>
    rw [ht] at hd
    have hd2 : some (lowerChar a) = some d := hd
    cases hd2
    rw [isJsWs_lowerChar]
    exact hl a ht

theorem lowerCollapse_trim_fixed {T : List Char}
    (hh : ∀ d, T.head? = some d → isJsWs d = false)
    (hl : ∀ d, T.getLast? = some d → isJsWs d = false) :
    jsTrimL (collapseWsAux false (T.map lowerChar)) = collapseWsAux false (T.map lowerChar) :=
  trim_eq_self_of_ends
    (fun _ hc => cwAux_head_ws_false (lower_head_ws_false hh) hc)
    (fun _ hc => cwAux_getLast_ws_false (lower_getLast_ws_false hl) hc)

theorem lowerCollapse_idem_list (T : List Char) :
    collapseWsAux false ((collapseWsAux false (T.map lowerChar)).map lowerChar) =
      collapseWsAux false (T.map lowerChar) := by
  rw [collapseWsAux_map_lower, List.map_map]
  have hmm : List.map (lowerChar ∘ lowerChar) T = List.map lowerChar T :=
    List.map_congr_left (fun a _ => lowerChar_idem a)
  rw [hmm]
  exact (collapseWsAux_collapse (T.map lowerChar) false).1

theorem normalizeScalarString_idem (s : String) (fk : Option String) :
    normalizeScalarString (normalizeScalarString s fk) fk = normalizeScalarString s fk := by
  cases hdate : (if isDateFieldKey fk then normalizeDateString (jsTrim (nfkc s)) else none) with
  | some d =>
    have hdk : isDateFieldKey fk = true := by
      by_contra hb
      rw [if_neg hb] at hdate
      cases hdate
    rw [if_pos hdk] at hdate
    have hfirst : normalizeScalarString s fk = d := by
      simp only [normalizeScalarString]
      rw [if_pos hdk, hdate]
    rw [hfirst]
    have hrt : normalizeDateString d = some d := normalizeDateString_roundtrip hdate
    simp only [normalizeScalarString]
    rw [if_pos hdk, normalizeDateString_trim, hrt]
  | none =>
    cases hnum : (if isNumericFieldKey fk then normalizeDecimalString (jsTrim (nfkc s)) else none) with
    | some c =>
      have hnk : isNumericFieldKey fk = true := by
        by_contra hb
        rw [if_neg hb] at hnum
        cases hnum
      rw [if_pos hnk] at hnum
      obtain ⟨m, rfl⟩ := normalizeDecimalString_some_form hnum
      have hfirst : normalizeScalarString s fk = renderScaled m := by
        simp only [normalizeScalarString]
        rw [hdate, if_pos hnk, hnum]
      rw [hfirst]
      simp only [normalizeScalarString]
      have hdate2 : (if isDateFieldKey fk then
          normalizeDateString (jsTrim (nfkc (renderScaled m))) else none) = none := by
        split
        · rw [normalizeDateString_trim]
          exact normalizeDateString_renderScaled_none m
        · rfl
      rw [hdate2, if_pos hnk, normalizeDecimalString_trim,
        normalizeDecimalString_render_roundtrip]
    | none =>
      cases hlk : isLowercaseTextFieldKey fk with
      | true =>
        obtain ⟨hdk0, hnk0⟩ := lowercase_key_not_date_not_numeric hlk
        have hfirst : normalizeScalarString s fk = collapseWs (asciiToLower (jsTrim (nfkc s))) := by
          simp only [normalizeScalarString]
          rw [hdate, hnum, if_pos hlk]
        rw [hfirst]
        simp only [normalizeScalarString]
        rw [if_neg (by rw [hdk0]; exact Bool.false_ne_true),
          if_neg (by rw [hnk0]; exact Bool.false_ne_true), if_pos hlk]
        have hh : ∀ d, (jsTrimL (nfkc s).data).head? = some d → isJsWs d = false :=
          fun _ hd => jsTrimL_head_false hd
        have hl : ∀ d, (jsTrimL (nfkc s).data).getLast? = some d → isJsWs d = false :=
          fun _ hd => jsTrimL_getLast_false hd
        have h1 : jsTrim (nfkc (collapseWs (asciiToLower (jsTrim (nfkc s))))) =
            collapseWs (asciiToLower (jsTrim (nfkc s))) :=
          congrArg String.mk (lowerCollapse_trim_fixed hh hl)
        have h2 : collapseWs (asciiToLower (collapseWs (asciiToLower (jsTrim (nfkc s))))) =
            collapseWs (asciiToLower (jsTrim (nfkc s))) :=
          congrArg String.mk (lowerCollapse_idem_list (jsTrimL (nfkc s).data))
        rw [h1]
        exact h2
      | false =>
        have hfirst : normalizeScalarString s fk = jsTrim (nfkc s) := by
          simp only [normalizeScalarString]
          rw [hdate, hnum, if_neg (by rw [hlk]; exact Bool.false_ne_true)]
        rw [hfirst]
        simp only [normalizeScalarString]
        have hdate2 : (if isDateFieldKey fk then
            normalizeDateString (jsTrim (nfkc (jsTrim (nfkc s)))) else none) = none := by
          split
          · rename_i hdk1
            rw [normalizeDateString_trim]
            rw [if_pos hdk1] at hdate
            exact hdate
          · rfl
        have hnum2 : (if isNumericFieldKey fk then
            normalizeDecimalString (jsTrim (nfkc (jsTrim (nfkc s)))) else none) = none := by
          split
          · rename_i hnk1
            rw [normalizeDecimalString_trim]
            rw [if_pos hnk1] at hnum
            exact hnum
          · rfl
        rw [hdate2, hnum2, if_neg (by rw [hlk]; exact Bool.false_ne_true)]
        rw [show nfkc (jsTrim (nfkc s)) = jsTrim (nfkc s) from rfl, jsTrim_idem]

theorem attach_map_canon_arr (items : List Jv) :
    (items.attach.map fun x => canonicalizeRowValue x.1 none) =
      items.map fun x => canonicalizeRowValue x none := by
  rw [show (fun x : {y // y ∈ items} => canonicalizeRowValue x.1 none) =
      ((fun x => canonicalizeRowValue x none) ∘ Subtype.val) from rfl,
    ← List.map_map, List.attach_map_subtype_val]

theorem attach_map_canon_obj (l : List (String × Jv)) :
    (l.attach.map fun p => (p.1.1, canonicalizeRowValue p.1.2 (some p.1.1))) =
      l.map fun q => (q.1, canonicalizeRowValue q.2 (some q.1)) := by
  rw [show (fun p : {q // q ∈ l} => (p.1.1, canonicalizeRowValue p.1.2 (some p.1.1))) =
      ((fun q : String × Jv => (q.1, canonicalizeRowValue q.2 (some q.1))) ∘ Subtype.val)
      from rfl,
    ← List.map_map, List.attach_map_subtype_val]

theorem sortPairs_map_canon (fields : List (String × Jv)) :
    sortPairs ((sortPairs fields).map fun q => (q.1, canonicalizeRowValue q.2 (some q.1))) =
      (sortPairs fields).map fun q => (q.1, canonicalizeRowValue q.2 (some q.1)) := by
  apply List.Sorted.insertionSort_eq
  have hs : List.Sorted pairLe (sortPairs fields) := List.sorted_insertionSort pairLe fields
  exact List.Pairwise.map _ (fun a b hab => hab) hs

theorem canon_idem_aux :
    ∀ (n : Nat) (v : Jv) (fk : Option String), sizeOf v ≤ n →
      canonicalizeRowValue (canonicalizeRowValue v fk) fk = canonicalizeRowValue v fk := by
  intro n
  induction n with
  | zero =>
    intro v fk hv
    exfalso
    cases v <;> simp at hv
  | succ n ih =>
    intro v fk hv
    cases v with
    | null => simp only [canonicalizeRowValue]
    | bool b => simp only [canonicalizeRowValue, normalizeScalarValue]
    | str s2 => simp only [canonicalizeRowValue, normalizeScalarValue, normalizeScalarString_idem]
    | arr items =>
      simp only [canonicalizeRowValue]
      congr 1
      rw [attach_map_canon_arr, attach_map_canon_arr, List.map_map]
      apply List.map_congr_left
      intro a ha
      have hsz : sizeOf a ≤ n := by
        have h1 := List.sizeOf_lt_of_mem ha
        have h2 : sizeOf (Jv.arr items) = 1 + sizeOf items := Jv.arr.sizeOf_spec items
        omega
      exact ih a none hsz
    | obj fields =>
      simp only [canonicalizeRowValue]
      congr 1
      rw [attach_map_canon_obj, attach_map_canon_obj, sortPairs_map_canon, List.map_map]
      apply List.map_congr_left
      intro q hq
      obtain ⟨qk, qv⟩ := q
      have hsz : sizeOf qv ≤ n := by
        have h1 := sizeOf_lt_of_mem_sortPairs hq
        have h2 : sizeOf (Jv.obj fields) = 1 + sizeOf fields := Jv.obj.sizeOf_spec fields
        have h3 : sizeOf (qk, qv) = 1 + sizeOf qk + sizeOf qv := Prod.mk.sizeOf_spec qk qv
        omega
      show (qk, canonicalizeRowValue (canonicalizeRowValue qv (some qk)) (some qk)) =
        (qk, canonicalizeRowValue qv (some qk))
      rw [ih qv (some qk) hsz]

theorem canonicalizeRowValue_idem (v : Jv) (fk : Option String) :
    canonicalizeRowValue (canonicalizeRowValue v fk) fk = canonicalizeRowValue v fk :=
  canon_idem_aux (sizeOf v) v fk (le_refl _)

theorem canon_obj_eq (j : List (String × Jv)) :
    canonicalizeRowValue (.obj j) none = .obj (canonicalRowFields j) := by
  simp only [canonicalizeRowValue]
  rw [attach_map_canon_obj]
  rfl

theorem rowSha256OfRawJson_canonical (j : List (String × Jv)) :
    rowSha256OfRawJson (canonicalRowFields j) = rowSha256OfRawJson j := by
  have h1 : canonicalizeRowValue (.obj j) none = .obj (canonicalRowFields j) := canon_obj_eq j
  have h2 := canonicalizeRowValue_idem (Jv.obj j) none
  rw [h1] at h2
  rw [rowSha256OfRawJson, rowSha256OfRawJson, h2, ← h1]

/-- C3: canonicalize-and-hash is idempotent.  For every raw record, feeding
the canonical row structure computed from its `rawJson` (the sorted-key,
value-normalized tree that the hasher serializes) back through
`normalizeExtractedRecords` as the `rawJson` of a fresh record produces the
same `rowSha256` as the original record. -/
theorem c3_canonicalize_hash_idempotent (mt : String) (i1 i2 : Nat)
    (j : List (String × Jv)) :
    (normalizeExtractedRecords ⟨mt, [⟨canonicalRowFields j, i1⟩]⟩).records.map
        (fun r => r.rowSha256) =
      (normalizeExtractedRecords ⟨mt, [⟨j, i2⟩]⟩).records.map (fun r => r.rowSha256) := by
  simp only [normalizeExtractedRecords, List.map_cons, List.map_nil]
  rw [rowSha256OfRawJson_canonical]

end Ingest
